import Mathlib

/-!
Verification development for the AI-driven category generation and
incremental-update pipeline of the Vibeshopper Shop Mini
(`sua/src/components/ProductList.tsx`).

The file shallowly embeds the JavaScript/TypeScript code that the claims
are about:

* `Json` models the JavaScript values that flow through the pipeline
  (JSON.parse results, response envelopes, category records).  JS numbers
  are idealized as exact rationals (`Rat`); float rounding is not modelled.
  `undefined` is modelled at use sites as `Option Json` (`none` = undefined),
  since JSON-parsed data never contains `undefined` values.
* `jsonParse` models the built-in `JSON.parse` (strict JSON grammar,
  fuel-based recursive descent; the fuel `2*length+16` always suffices
  because every two recursive steps consume at least one character).
* The pipeline functions (`extractResponse`, `parseCats`,
  `normalizeCategories`, `enforceDiversity`, `generateCategoriesWithAI`,
  `handleCategoryUpdate`, `mergeCategories`) are translated line by line
  from the source component (both revisions present in the file; the
  diversity enforcer exists only in the first revision, the id-carrying
  normalizer and the incremental updater only in the second).

Category records in component state are modelled as `Json.obj` values so
that the untyped object spreads of the merge step (`{...cat, ...updated}`)
can be modelled faithfully.
-/

set_option maxRecDepth 200000

namespace VS

/-- JavaScript values as produced by `JSON.parse` / the fal.ai envelope. -/
inductive Json where
  | null
  | bool (b : Bool)
  | num (q : Rat)
  | str (s : String)
  | arr (xs : List Json)
  | obj (fs : List (String × Json))

/-! ## Characters and strings

All string processing is done over `List Char`; the built-in recursive
`String` functions are avoided on purpose (they do not reduce well).
-/

/-- JSON whitespace (the characters `JSON.parse` skips between tokens). -/
def isJsonWs (c : Char) : Bool :=
  c = ' ' || c = '\t' || c = '\n' || c = '\r'

/-- JavaScript `String.prototype.trim` whitespace (common ASCII subset;
a superset of JSON whitespace). -/
def isJsWs (c : Char) : Bool :=
  isJsonWs c || c = '\x0b' || c = '\x0c'

/-- ASCII decimal digit. -/
def isDigitCh (c : Char) : Bool := '0' ≤ c && c ≤ '9'

/-- ASCII letter (what `[a-z]` with the `i` flag matches). -/
def isAsciiAlpha (c : Char) : Bool :=
  ('a' ≤ c && c ≤ 'z') || ('A' ≤ c && c ≤ 'Z')

/-- Drop `p`-characters from both ends of a character list. -/
def trimListWith (p : Char → Bool) (cs : List Char) : List Char :=
  ((cs.dropWhile p).reverse.dropWhile p).reverse

/-- JavaScript `s.trim()`. -/
def jsTrim (s : String) : String := ⟨trimListWith isJsWs s.data⟩

/-- ASCII `toLowerCase`, as JavaScript applies it to the ASCII names used
by the updater (full Unicode case mapping is not modelled). -/
def charLower (c : Char) : Char :=
  if 'A' ≤ c && c ≤ 'Z' then Char.ofNat (c.toNat + 32) else c

/-- Character-list version of `String.prototype.includes` (substring test). -/
def containsChars (hay needle : List Char) : Bool :=
  match hay with
  | [] => needle = []
  | _ :: t => needle.isPrefixOf hay || containsChars t needle

/-- JavaScript `a.includes(b)` after `toLowerCase` on both sides. -/
def lowerIncludes (hay needle : String) : Bool :=
  containsChars (hay.data.map charLower) (needle.data.map charLower)

/-- Decimal digit character of `n % 10`. -/
def digitCh (n : Nat) : Char :=
  match n % 10 with
  | 0 => '0' | 1 => '1' | 2 => '2' | 3 => '3' | 4 => '4'
  | 5 => '5' | 6 => '6' | 7 => '7' | 8 => '8' | _ => '9'

/-- Big-endian decimal digits of `n` (`fuel`-bounded; `fuel ≥ n` suffices). -/
def natDigitsAux : Nat → Nat → List Char
  | 0, _ => []
  | fuel+1, n => if n = 0 then [] else natDigitsAux fuel (n / 10) ++ [digitCh n]

/-- Decimal rendering of a natural number, as JavaScript renders integers. -/
def natToChars (n : Nat) : List Char :=
  if n = 0 then ['0'] else natDigitsAux (n + 1) n

def natToString (n : Nat) : String := ⟨natToChars n⟩

/-- Decimal rendering of an integer. -/
def intToString (i : Int) : String :=
  if i < 0 then "-" ++ natToString i.natAbs else natToString i.natAbs

/-! ## A model of `JSON.parse`

Strict JSON grammar over `List Char`.  All recursion is fuel-structural so
that every definition reduces inside the kernel.  JSON numbers are read as
exact rationals.
-/

/-- Numeric value of a hexadecimal digit. -/
def hexVal (c : Char) : Option Nat :=
  if '0' ≤ c && c ≤ '9' then some (c.toNat - 48)
  else if 'a' ≤ c && c ≤ 'f' then some (c.toNat - 87)
  else if 'A' ≤ c && c ≤ 'F' then some (c.toNat - 55)
  else none

/-- Single-character JSON string escapes. -/
def escCharMap (c : Char) : Option Char :=
  if c = '"' then some '"'
  else if c = '\\' then some '\\'
  else if c = '/' then some '/'
  else if c = 'b' then some '\x08'
  else if c = 'f' then some '\x0c'
  else if c = 'n' then some '\n'
  else if c = 'r' then some '\r'
  else if c = 't' then some '\t'
  else none

/-- Parse the body of a JSON string after the opening quote; returns the
decoded characters and the remainder after the closing quote.  (Surrogate
pairing of `\u` escapes is not modelled; `Char.ofNat` maps invalid code
points to a default character.) -/
def parseStrBody : Nat → List Char → Option (List Char × List Char)
  | 0, _ => none
  | _+1, [] => none
  | fuel+1, c :: cs =>
    if c = '"' then some ([], cs)
    else if c = '\\' then
      match cs with
      | [] => none
      | e :: cs1 =>
        if e = 'u' then
          match cs1 with
          | h1 :: h2 :: h3 :: h4 :: cs2 =>
            match hexVal h1, hexVal h2, hexVal h3, hexVal h4 with
            | some a, some b, some c2, some d =>
              (parseStrBody fuel cs2).map
                (fun r => (Char.ofNat (a * 4096 + b * 256 + c2 * 16 + d) :: r.1, r.2))
            | _, _, _, _ => none
          | _ => none
        else
          match escCharMap e with
          | some d => (parseStrBody fuel cs1).map (fun r => (d :: r.1, r.2))
          | none => none
    else if c.toNat < 32 then none
    else (parseStrBody fuel cs).map (fun r => (c :: r.1, r.2))

/-- Value of a big-endian digit list. -/
def digitsToNat (ds : List Char) : Nat :=
  ds.foldl (fun a c => 10 * a + (c.toNat - 48)) 0

/-- The rational `sign * m * 10 ^ (ex - fracLen)`, built without rational
arithmetic. -/
def ratOfParts (neg : Bool) (m : Nat) (fracLen : Nat) (ex : Int) : Rat :=
  let e : Int := ex - (fracLen : Int)
  let sm : Int := if neg then -(m : Int) else (m : Int)
  if 0 ≤ e then mkRat (sm * ((10 ^ e.toNat : Nat) : Int)) 1
  else mkRat sm (10 ^ (-e).toNat)

/-- Fraction part of a JSON number: `(. [0-9]+)?`, returning the fraction
digits and the remainder. -/
def parseNumFrac (cs2 : List Char) : Option (List Char × List Char) :=
  match cs2 with
  | '.' :: r =>
    if (r.takeWhile isDigitCh).isEmpty then none
    else some (r.takeWhile isDigitCh, r.dropWhile isDigitCh)
  | _ => some ([], cs2)

/-- Exponent part of a JSON number: `([eE][+-]?[0-9]+)?`, returning the
exponent value and the remainder. -/
def parseNumExp (cs3 : List Char) : Option (Int × List Char) :=
  match cs3 with
  | [] => some (0, [])
  | e :: r =>
    if e = 'e' || e = 'E' then
      let sr := match r with
        | '-' :: r2 => ((true : Bool), r2)
        | '+' :: r2 => ((false : Bool), r2)
        | _ => ((false : Bool), r)
      if (sr.2.takeWhile isDigitCh).isEmpty then none
      else
        some ((if sr.1 then -(digitsToNat (sr.2.takeWhile isDigitCh) : Int)
               else (digitsToNat (sr.2.takeWhile isDigitCh) : Int)),
          sr.2.dropWhile isDigitCh)
    else some (0, e :: r)

/-- Parse a JSON number token (`-? (0 | [1-9][0-9]*) (. [0-9]+)? ([eE][+-]?[0-9]+)?`). -/
def parseNumTok (cs : List Char) : Option (Rat × List Char) :=
  let sp := match cs with | '-' :: r => ((true : Bool), r) | _ => ((false : Bool), cs)
  let intDs := sp.2.takeWhile isDigitCh
  if intDs.isEmpty then none
  else if 1 < intDs.length && intDs.head? = some '0' then none
  else
    match parseNumFrac (sp.2.dropWhile isDigitCh) with
    | none => none
    | some (fracDs, cs3) =>
      match parseNumExp cs3 with
      | none => none
      | some (ex, rest) =>
        some (ratOfParts sp.1 (digitsToNat (intDs ++ fracDs)) fracDs.length ex, rest)

/-- Check that `lit` is a prefix of `cs` and drop it. -/
def dropLit : List Char → List Char → Option (List Char)
  | [], cs => some cs
  | l :: ls, c :: cs => if c = l then dropLit ls cs else none
  | _ :: _, [] => none

/-- Skip JSON whitespace. -/
def skipWs (cs : List Char) : List Char := cs.dropWhile isJsonWs

/-- Last-wins insertion used to model JavaScript object key semantics:
an existing key is overwritten in place, a new key is appended.  This is
both what `JSON.parse` does with duplicate keys and what object spread
does, and it keeps the first-occurrence key order of JS objects. -/
def setKey (fs : List (String × Json)) (k : String) (v : Json) : List (String × Json) :=
  if fs.any (fun p => p.1 = k) then
    fs.map (fun p => if p.1 = k then (k, v) else p)
  else fs ++ [(k, v)]

/-- Build object fields from parsed members, later duplicates overwriting
earlier ones as in `JSON.parse`. -/
def mkObjFields (fs : List (String × Json)) : List (String × Json) :=
  fs.foldl (fun acc kv => setKey acc kv.1 kv.2) []

mutual

/-- Parse one JSON value; the input must start at a non-whitespace
character.  Returns the value and the unconsumed remainder. -/
def parseVal : Nat → List Char → Option (Json × List Char)
  | 0, _ => none
  | fuel+1, cs =>
    match cs with
    | [] => none
    | c :: cs1 =>
      if c = 'n' then (dropLit ['u', 'l', 'l'] cs1).map (fun r => (Json.null, r))
      else if c = 't' then (dropLit ['r', 'u', 'e'] cs1).map (fun r => (Json.bool true, r))
      else if c = 'f' then (dropLit ['a', 'l', 's', 'e'] cs1).map (fun r => (Json.bool false, r))
      else if c = '"' then
        (parseStrBody (fuel+1) cs1).map (fun r => (Json.str ⟨r.1⟩, r.2))
      else if c = '[' then
        match skipWs cs1 with
        | ']' :: rest => some (Json.arr [], rest)
        | cs2 =>
          match parseElems fuel cs2 with
          | some (vs, rest) => some (Json.arr vs, rest)
          | none => none
      else if c = '{' then
        match skipWs cs1 with
        | '}' :: rest => some (Json.obj [], rest)
        | cs2 =>
          match parseMems fuel cs2 with
          | some (fs, rest) => some (Json.obj (mkObjFields fs), rest)
          | none => none
      else if c = '-' || isDigitCh c then
        (parseNumTok cs).map (fun r => (Json.num r.1, r.2))
      else none

/-- Parse the elements of a non-empty JSON array up to and including the
closing bracket. -/
def parseElems : Nat → List Char → Option (List Json × List Char)
  | 0, _ => none
  | fuel+1, cs =>
    match parseVal fuel cs with
    | none => none
    | some (v, r) =>
      match skipWs r with
      | ',' :: r2 =>
        match parseElems fuel (skipWs r2) with
        | some (vs, rest) => some (v :: vs, rest)
        | none => none
      | ']' :: rest => some ([v], rest)
      | _ => none

/-- Parse the members of a non-empty JSON object up to and including the
closing brace. -/
def parseMems : Nat → List Char → Option (List (String × Json) × List Char)
  | 0, _ => none
  | fuel+1, cs =>
    match cs with
    | '"' :: cs1 =>
      match parseStrBody (fuel+1) cs1 with
      | none => none
      | some (k, r) =>
        match skipWs r with
        | ':' :: r2 =>
          match parseVal fuel (skipWs r2) with
          | none => none
          | some (v, r3) =>
            match skipWs r3 with
            | ',' :: r4 =>
              match parseMems fuel (skipWs r4) with
              | some (fs, rest) => some ((⟨k⟩, v) :: fs, rest)
              | none => none
            | '}' :: rest => some ([(⟨k⟩, v)], rest)
            | _ => none
        | _ => none
    | _ => none

end

/-- Fuel that always suffices for `parseVal` (each two recursive steps
consume at least one character). -/
def jsonFuel (cs : List Char) : Nat := 2 * cs.length + 16

/-- `JSON.parse` on a character list: trim surrounding whitespace, parse one
value, require that nothing is left.  `none` models a thrown `SyntaxError`. -/
def jsonParseList (cs : List Char) : Option Json :=
  let t := trimListWith isJsonWs cs
  match parseVal (jsonFuel t) t with
  | some (v, []) => some v
  | _ => none

/-- `JSON.parse` on a string. -/
def jsonParse (s : String) : Option Json := jsonParseList s.data

/-! ## JavaScript value semantics -/

/-- First-occurrence lookup in object fields (all object field lists in the
model are kept duplicate-free, mirroring JS objects). -/
def getProp : List (String × Json) → String → Option Json
  | [], _ => none
  | (k, v) :: fs, q => if k = q then some v else getProp fs q

/-- Property access `x.k` / `x?.k`; `none` models `undefined`.  Only object
own-properties are modelled by name (the embedded code never accesses
array index or `length` properties through this path). -/
def jsGet : Json → String → Option Json
  | .obj fs, k => getProp fs k
  | _, _ => none

/-- JavaScript truthiness. -/
def jsTruthy : Json → Bool
  | .null => false
  | .bool b => b
  | .num q => if q = 0 then false else true
  | .str s => if s = "" then false else true
  | .arr _ => true
  | .obj _ => true

def jsTruthyOpt (o : Option Json) : Bool :=
  match o with
  | some v => jsTruthy v
  | none => false

/-- `a ?? b` for a possibly-undefined left operand (`undefined` and `null`
fall through). -/
def nullishD (a : Option Json) (b : Json) : Json :=
  match a with
  | some .null => b
  | some v => v
  | none => b

/-- `a ?? b` with both operands possibly undefined. -/
def nnOr (a b : Option Json) : Option Json :=
  match a with
  | some .null => b
  | some v => some v
  | none => b

/-- `a || b`: first truthy operand, else the right operand. -/
def orTruthy (a b : Option Json) : Option Json :=
  if jsTruthyOpt a then a else b

/-- JavaScript `===` restricted to the comparisons the embedded code
performs.  Arrays and objects compare by reference; every such comparison
in the code puts values of different provenance (stored state vs. a fresh
parse) side by side, so `false` is faithful there.  Numbers are compared
exactly (float idealization). -/
def jsStrictEq : Json → Json → Bool
  | .null, .null => true
  | .bool a, .bool b => a = b
  | .num a, .num b => a = b
  | .str a, .str b => a = b
  | _, _ => false

/-- `===` over possibly-undefined values (`undefined === undefined` holds). -/
def optStrictEq : Option Json → Option Json → Bool
  | none, none => true
  | some a, some b => jsStrictEq a b
  | _, _ => false

/-- Fractional decimal digits of `rem/den` (`fuel`-bounded, trailing zeros
stop at a zero remainder). -/
def fracDigits : Nat → Nat → Nat → List Char
  | 0, _, _ => []
  | fuel+1, rem, den =>
    if rem = 0 then []
    else digitCh (rem * 10 / den) :: fracDigits fuel (rem * 10 % den) den

/-- `String(number)`.  Integers render exactly as JS renders them; for
non-integers the decimal expansion is emitted to 20 places (JS
shortest-round-trip float formatting is approximated — no claim exercises
non-integer rendering). -/
def jsNumToString (q : Rat) : String :=
  if q.den = 1 then intToString q.num
  else
    (if q.num < 0 then "-" else "") ++ natToString (q.num.natAbs / q.den) ++ "." ++
      ⟨fracDigits 20 (q.num.natAbs % q.den) q.den⟩

/-- Join with a separator. -/
def joinWith (sep : String) : List String → String
  | [] => ""
  | [x] => x
  | x :: xs => x ++ sep ++ joinWith sep xs

/-- JavaScript `String(v)`.  Arrays stringify via `Array.prototype.join`:
elements joined by commas with `null` rendering as the empty string;
objects as `"[object Object]"`.  Fuel bounds the array nesting depth (a
thousand levels — beyond that JS engines overflow the stack anyway). -/
def jsToStringF : Nat → Json → String
  | _, .null => "null"
  | _, .bool b => if b then "true" else "false"
  | _, .num q => jsNumToString q
  | _, .str s => s
  | _, .obj _ => "[object Object]"
  | 0, .arr _ => ""
  | fuel+1, .arr xs =>
    joinWith "," (xs.map (fun v => match v with
      | .null => ""
      | v => jsToStringF fuel v))

def jsToString (v : Json) : String := jsToStringF 1000 v

/-- `Number(string)` restricted to finite results: `none` models `NaN` and
the infinities (everything that fails `Number.isFinite`). -/
def strToNumber (s : String) : Option Rat :=
  let cs := trimListWith isJsWs s.data
  match cs with
  | [] => some 0
  | '0' :: x :: rest =>
    if x = 'x' || x = 'X' then baseCharsVal 16 rest
    else if x = 'o' || x = 'O' then baseCharsVal 8 rest
    else if x = 'b' || x = 'B' then baseCharsVal 2 rest
    else decimalNumberVal cs
  | _ => decimalNumberVal cs
where
  /-- Integer literal in base `b`; every character must be a digit of that base. -/
  baseCharsVal (b : Nat) (ds : List Char) : Option Rat :=
    if ds.isEmpty then none
    else if ds.all (fun c => match hexVal c with | some v => v < b | none => false) then
      some ((ds.foldl (fun a c => b * a + ((hexVal c).getD 0)) 0 : Nat) : Rat)
    else none
  /-- JS decimal number grammar: `[+-]? (digits [. digits?] | . digits) ([eE][+-]?digits)?`. -/
  decimalNumberVal (cs : List Char) : Option Rat :=
    let (neg, cs1) :=
      match cs with
      | '-' :: r => (true, r)
      | '+' :: r => (false, r)
      | _ => (false, cs)
    if cs1 = ['I','n','f','i','n','i','t','y'] then none
    else
      let intDs := cs1.takeWhile isDigitCh
      let cs2 := cs1.dropWhile isDigitCh
      let (fracDs, cs3) :=
        match cs2 with
        | '.' :: r => (r.takeWhile isDigitCh, r.dropWhile isDigitCh)
        | _ => ([], cs2)
      if intDs.isEmpty && fracDs.isEmpty then none
      else
        let contExp : Option Int :=
          match cs3 with
          | [] => some 0
          | e :: r =>
            if e = 'e' || e = 'E' then
              let (eneg, r1) :=
                match r with
                | '-' :: r2 => (true, r2)
                | '+' :: r2 => (false, r2)
                | _ => (false, r)
              let eds := r1.takeWhile isDigitCh
              if eds.isEmpty || !(r1.dropWhile isDigitCh).isEmpty then none
              else some (if eneg then -(digitsToNat eds : Int) else (digitsToNat eds : Int))
            else none
        match contExp with
        | none => none
        | some ex => some (ratOfParts neg (digitsToNat (intDs ++ fracDs)) fracDs.length ex)

/-- JavaScript `Number(v)` restricted to finite results (`none` = not
finite).  Objects and arrays are coerced through their string form. -/
def jsToNumber : Json → Option Rat
  | .null => some 0
  | .bool b => some (if b then 1 else 0)
  | .num q => some q
  | .str s => strToNumber s
  | .arr xs => strToNumber (jsToString (.arr xs))
  | .obj _ => none

/-- `Number(x)` where `x` may be `undefined` (`Number(undefined)` is NaN). -/
def jsToNumberOpt (o : Option Json) : Option Rat :=
  match o with
  | some v => jsToNumber v
  | none => none

/-! ## Response Text Extractor (lines 429–451 of the second revision,
99–120 of the first — the chains are identical) -/

inductive Extracted where
  | categories (xs : List Json)
  | text (s : String)
  | nothing

/-- The extraction chain: array envelope, string envelope, `output` field,
`data.output` field (guarded by the truthiness of `data`), then `text` /
`content` string fields.  `nothing` models "neither `categories` nor
`outputText` set", which makes the caller throw `'No response data found
in AI result'`. -/
def extractResponse (result : Json) : Extracted :=
  match result with
  | .arr xs => .categories xs
  | .str s => .text s
  | .obj fs =>
    match getProp fs "output" with
    | some (.arr xs) => .categories xs
    | some (.str s) => .text s
    | _ =>
      if jsTruthyOpt (getProp fs "data") then
        match (getProp fs "data").bind (fun d => jsGet d "output") with
        | some (.arr xs) => .categories xs
        | some (.str s) => .text s
        | _ => .nothing
      else
        match getProp fs "text" with
        | some (.str s) => .text s
        | _ =>
          match getProp fs "content" with
          | some (.str s) => .text s
          | _ => .nothing
  | _ => .nothing

/-! ## Category Parser/Normalizer (lines 461–507) -/

/-- Strip a leading code fence: `text.replace(/^```[a-z]*\n?/i, '')`. -/
def stripLeadFence (s : String) : String :=
  match s.data with
  | '`' :: '`' :: '`' :: rest =>
    match rest.dropWhile isAsciiAlpha with
    | '\n' :: r2 => ⟨r2⟩
    | r1 => ⟨r1⟩
  | _ => s

/-- Strip a trailing code fence: `text.replace(/```$/i, '')`. -/
def stripTrailFence (s : String) : String :=
  match s.data.reverse with
  | '`' :: '`' :: '`' :: rest => ⟨rest.reverse⟩
  | _ => s

/-- The sanitizing steps: `outputText.trim()`, both fence replaces, `trim()`. -/
def normText (s : String) : String :=
  jsTrim (stripTrailFence (stripLeadFence (jsTrim s)))

/-- Split at the first occurrence of `c`: `cs = before ++ c :: after` with
`c ∉ before`. -/
def splitFirstCh (c : Char) : List Char → Option (List Char × List Char)
  | [] => none
  | x :: xs =>
    if x = c then some ([], xs)
    else (splitFirstCh c xs).map (fun p => (x :: p.1, p.2))

/-- `text.match(/\[[\s\S]*\]/)`: the regex is greedy, so the match spans
from the first `[` to the last `]` of the text (when the last `]` comes
after the first `[`). -/
def extractBracketSub (s : String) : Option String :=
  match splitFirstCh '[' s.data with
  | none => none
  | some (_, after) =>
    match splitFirstCh ']' after.reverse with
    | none => none
    | some (_, revMid) => some ⟨'[' :: (revMid.reverse ++ [']'])⟩

/-- Steps 3–5 of the normalizer applied to a parsed value: re-parse a
double-encoded string, unwrap a plain object through
`output ?? data?.output ?? result ?? content ?? text`, then require an
array. -/
def coerceParsed (p0 : Json) : Option (List Json) :=
  let p1 :=
    match p0 with
    | .str s => (match jsonParse s with | some p => p | none => .str s)
    | p => p
  let p2 :=
    match p1 with
    | .obj fs =>
      let fromObj :=
        nnOr (getProp fs "output")
          (nnOr ((getProp fs "data").bind (fun d => jsGet d "output"))
            (nnOr (getProp fs "result")
              (nnOr (getProp fs "content") (getProp fs "text"))))
      match fromObj with
      | some (.arr xs) => Json.arr xs
      | some (.str s) => (match jsonParse s with | some p => p | none => .obj fs)
      | _ => .obj fs
    | p => p
  match p2 with
  | .arr xs => some xs
  | _ => none

/-- Steps 1–5 of the Parser/Normalizer on the extracted text: sanitize,
direct parse, greedy bracket extraction on failure, coercion.  `none`
models a thrown parse error (which the caller catches into the fallback). -/
def parseCats (outputText : String) : Option (List Json) :=
  let text := normText outputText
  let parsed? : Option Json :=
    match jsonParse text with
    | some p => some p
    | none =>
      match extractBracketSub text with
      | none => none
      | some sub => jsonParse sub
  match parsed? with
  | none => none
  | some parsed => coerceParsed parsed

/-- The type enumeration of the normalizer. -/
def allowedTypes : List String :=
  ["planning_app", "tools", "consumables", "containers", "seeds_plants", "accessories", "other"]

/-- The synthesized id `` `ai-generated-${Date.now()}-${index}` `` (the
timestamp is a parameter of the model). -/
def synthIdStr (now idx : Nat) : String :=
  "ai-generated-" ++ natToString now ++ "-" ++ natToString idx

/-- Field coercion for one parsed element (lines 493–507 of the second
revision).  A falsy `reason` leaves the record without a `reason` value
(the JS object carries the key with value `undefined`, which is
indistinguishable through every access the code performs). -/
def normalizeOne (now idx : Nat) (c : Json) : Json :=
  let idv := nullishD (jsGet c "id") (.str (synthIdStr now idx))
  let namev := Json.str (jsToString (nullishD (nnOr (jsGet c "name") (jsGet c "title")) (.str "Untitled")))
  let descv := Json.str (jsToString (nullishD (jsGet c "description") (.str "")))
  let termsv := Json.arr
    (match jsGet c "searchTerms" with
     | some (.arr ts) => ts.map (fun t => Json.str (jsToString t))
     | _ => [])
  let priov := Json.num
    (match jsToNumberOpt (jsGet c "priority") with
     | some q => q
     | none => 3)
  let tstr := jsToString (nullishD (jsGet c "type") (.str "other"))
  let typev := Json.str (if allowedTypes.contains tstr then tstr else "other")
  let base := [("id", idv), ("name", namev), ("description", descv),
               ("searchTerms", termsv), ("priority", priov), ("type", typev)]
  if jsTruthyOpt (jsGet c "reason") then
    .obj (base ++ [("reason", Json.str (jsToString (nullishD (jsGet c "reason") .null)))])
  else .obj base

/-- `categories.map((c, index) => ...)` with explicit running index. -/
def normalizeFrom (now : Nat) : Nat → List Json → List Json
  | _, [] => []
  | i, c :: cs => normalizeOne now i c :: normalizeFrom now (i + 1) cs

def normalizeCategories (now : Nat) (xs : List Json) : List Json :=
  normalizeFrom now 0 xs

/-- The priority of a category as the sort comparator coerces it
(`b.priority - a.priority`); `none` is NaN. -/
def prioOf (c : Json) : Option Rat := jsToNumberOpt (jsGet c "priority")

/-- Stable descending insertion: the new element goes after every element
whose priority is not strictly smaller (a NaN comparison keeps order, as
JS sort treats a non-positive comparator result). -/
def insertDesc (c : Json) : List Json → List Json
  | [] => [c]
  | d :: ds =>
    match prioOf d, prioOf c with
    | some pd, some pc => if pd < pc then c :: d :: ds else d :: insertDesc c ds
    | _, _ => d :: insertDesc c ds

/-- `categories.sort((a, b) => b.priority - a.priority)` as a stable
descending sort. -/
def sortByPrioDesc (l : List Json) : List Json :=
  l.foldl (fun acc c => insertDesc c acc) []

/-! ## Diversity Enforcer (lines 183–201, first revision only) -/

def requiredTypes : List String :=
  ["planning_app", "tools", "consumables", "containers"]

/-- The hardcoded synthesized categories (source literal field order). -/
def synthTemplate (t : String) : Json :=
  if t = "planning_app" then
    .obj [("name", .str "Planning App"), ("description", .str "Plan tasks and track progress"),
          ("type", .str "planning_app"),
          ("searchTerms", .arr [.str "planner app", .str "task tracker app", .str "project planner"]),
          ("priority", .num 3), ("reason", .str "Ensure organized execution")]
  else if t = "tools" then
    .obj [("name", .str "Tool Set"), ("description", .str "Essential kit for the job"),
          ("type", .str "tools"),
          ("searchTerms", .arr [.str "tool set", .str "hand tools", .str "starter tool kit"]),
          ("priority", .num 3), ("reason", .str "Core physical tools")]
  else if t = "consumables" then
    .obj [("name", .str "Consumables"), ("description", .str "Materials used up during work"),
          ("type", .str "consumables"),
          ("searchTerms", .arr [.str "consumables", .str "supplies", .str "materials"]),
          ("priority", .num 2), ("reason", .str "Common recurring needs")]
  else if t = "containers" then
    .obj [("name", .str "Containers"), ("description", .str "Storage or holders needed"),
          ("type", .str "containers"),
          ("searchTerms", .arr [.str "containers", .str "bins", .str "pots"]),
          ("priority", .num 2), ("reason", .str "Organization/usage")]
  else
    .obj [("name", .str "Accessories"), ("description", .str "Helpful add-ons"),
          ("type", .str "accessories"),
          ("searchTerms", .arr [.str "accessories", .str "add-ons"]),
          ("priority", .num 1), ("reason", .str "Support items")]

/-- `c.type ?? 'other'`. -/
def typeOrOther (c : Json) : Json := nullishD (jsGet c "type") (.str "other")

/-- Presence test of a required type in the collected type set
(`Set.has`, SameValueZero membership). -/
def typePresent (cats : List Json) (t : String) : Bool :=
  (cats.map typeOrOther).any (fun v => jsStrictEq v (.str t))

/-- The Diversity Enforcer: append one synthesized category for each
required type absent from the batch. -/
def enforceDiversity (cats : List Json) : List Json :=
  let missing := requiredTypes.filter (fun t => !typePresent cats t)
  if missing.length > 0 then cats ++ missing.map synthTemplate else cats

/-! ## Full generation (lines 387–557, second revision) -/

/-- `prompt.split(' ').slice(0, 3).join(' ')` — the split keeps empty
fragments exactly as JS does. -/
def splitOnCh (c : Char) : List Char → List (List Char)
  | [] => [[]]
  | x :: xs =>
    if x = c then [] :: splitOnCh c xs
    else
      match splitOnCh c xs with
      | [] => [[x]]
      | g :: gs => (x :: g) :: gs

def firstThreeWords (prompt : String) : String :=
  joinWith " " (((splitOnCh ' ' prompt.data).map (fun g => (⟨g⟩ : String))).take 3)

/-- The parse-error fallback batch (lines 525–534). -/
def fallbackParseCats (prompt : String) : List Json :=
  [.obj [("id", .str "fallback-general"), ("name", .str "General Results"),
         ("description", .str "Broad search results"),
         ("searchTerms", .arr [.str (firstThreeWords prompt)]),
         ("priority", .num 3), ("type", .str "other")]]

/-- The API-error fallback batch (lines 542–551). -/
def fallbackApiCats (prompt : String) : List Json :=
  [.obj [("id", .str "fallback-general-2"), ("name", .str "Search Results"),
         ("description", .str "General search results"),
         ("searchTerms", .arr [.str (firstThreeWords prompt)]),
         ("priority", .num 3), ("type", .str "other")]]

/-- One full generation run.  `callResult = none` models `fal.subscribe`
throwing (API error path); a falsy envelope skips the whole block and
writes nothing (`none` result); otherwise the returned list is the new
`generatedCategories` state. -/
def generateCategoriesWithAI (now : Nat) (prompt : String) (callResult : Option Json) :
    Option (List Json) :=
  match callResult with
  | none => some (fallbackApiCats prompt)
  | some result =>
    if !jsTruthy result then none
    else
      match extractResponse result with
      | .categories xs => some (sortByPrioDesc (normalizeCategories now xs))
      | .text t =>
        match parseCats t with
        | some xs => some (sortByPrioDesc (normalizeCategories now xs))
        | none => some (fallbackParseCats prompt)
      | .nothing => some (fallbackParseCats prompt)

/-! ## Incremental Updater (lines 560–723, second revision) -/

/-- Own enumerable properties contributed by a spread source: object
fields, array index properties, string index properties; primitives
contribute nothing. -/
def enumFieldsFrom : Nat → List Json → List (String × Json)
  | _, [] => []
  | i, x :: xs => (natToString i, x) :: enumFieldsFrom (i + 1) xs

def enumCharsFrom : Nat → List Char → List (String × Json)
  | _, [] => []
  | i, c :: cs => (natToString i, .str ⟨[c]⟩) :: enumCharsFrom (i + 1) cs

def enumPropsOf : Json → List (String × Json)
  | .obj fs => fs
  | .arr xs => enumFieldsFrom 0 xs
  | .str s => enumCharsFrom 0 s.data
  | _ => []

/-- Object spread `{...a, ...b}`. -/
def objSpread (a b : Json) : List (String × Json) :=
  (enumPropsOf b).foldl (fun acc kv => setKey acc kv.1 kv.2) (enumPropsOf a)

/-- `{ ...cat, isUpdating: b }`. -/
def setIsUpdating (cat : Json) (b : Bool) : Json :=
  .obj (setKey (enumPropsOf cat) "isUpdating" (.bool b))

/-- The merge step (lines 702–709): map over the current array, matching
update records by `id` (`u.id === cat.id`), shallow-spreading a match over
the category and clearing `isUpdating` either way. -/
def mergeCategories (cats us : List Json) : List Json :=
  cats.map (fun cat =>
    match us.find? (fun u => optStrictEq (jsGet u "id") (jsGet cat "id")) with
    | some u => .obj (setKey (objSpread cat u) "isUpdating" (.bool false))
    | none => setIsUpdating cat false)

/-- Name matching of the target resolution (lines 636–643): both-direction
case-insensitive substring containment.  A non-string category name or
fragment throws a `TypeError` in JS (landing in the outer catch, hence a
full regeneration); the claims are stated under string hypotheses and the
model treats that case as a non-match. -/
def nameMatches (cat tn : Json) : Bool :=
  match jsGet cat "name", tn with
  | some (.str nm), .str t => lowerIncludes nm t || lowerIncludes t nm
  | _, _ => false

/-- Lines 634–646: ids of the categories matched by some target fragment. -/
def resolveTargetIds (cats targets : List Json) : List (Option Json) :=
  (cats.filter (fun cat => targets.any (fun tn => nameMatches cat tn))).map
    (fun cat => jsGet cat "id")

/-- `targetCategoryIds.includes(cat.id)` (SameValueZero membership). -/
def idIncluded (ids : List (Option Json)) (i : Option Json) : Bool :=
  ids.any (fun x => optStrictEq x i)

/-- The marking write (lines 652–655). -/
def markCategories (cats : List Json) (ids : List (Option Json)) : List Json :=
  cats.map (fun cat => setIsUpdating cat (idIncluded ids (jsGet cat "id")))

/-- Analysis-response parsing (lines 600–621); `analysis` starts as `{}`
and keeps that value when parsing fails. -/
def parseAnalysis (ar : Json) : Json :=
  match ar with
  | .str s => (match jsonParse s with | some a => a | none => .obj [])
  | .arr xs =>
    parseAnalysisObj (.arr xs)
  | .obj fs =>
    parseAnalysisObj (.obj fs)
  | _ => .obj []
where
  /-- The `typeof === 'object'` branch:
  `fromObj = r?.data?.output || r?.output || r`. -/
  parseAnalysisObj (r : Json) : Json :=
    match orTruthy ((jsGet r "data").bind (fun d => jsGet d "output"))
        (orTruthy (jsGet r "output") (some r)) with
    | some (.str s) => (match jsonParse s with | some a => a | none => .obj [])
    | some v => v
    | none => .obj []

/-- Update-response parsing (lines 676–700); `updatedCategories` starts as
`[]` and keeps that value when every parse attempt fails, so the result is
an empty *array* — not a parse failure — in that case. -/
def parseUpdateResult (ur : Json) : Json :=
  match ur with
  | .arr xs => .arr xs
  | .str s => (match jsonParse s with | some v => v | none => .arr [])
  | .obj fs =>
    match orTruthy ((jsGet (Json.obj fs) "data").bind (fun d => jsGet d "output"))
        (orTruthy (getProp fs "output") (some (.obj fs))) with
    | some (.arr xs) => .arr xs
    | some (.str s) => (match jsonParse s with | some v => v | none => .arr [])
    | _ => .arr []
  | _ => .arr []

/-- Outcome of one `handleCategoryUpdate` run: either a fall-through to
`generateCategoriesWithAI(newPrompt)` (recording the marking write when it
already happened), or a completed specific update with the marked and the
merged state. -/
inductive UpdateOutcome where
  | fullRegen (marked : Option (List Json)) (promptArg : String)
  | specificDone (marked : List Json) (final : List Json)

/-- `handleCategoryUpdate` (lines 560–723).  `analysisResp` / `updateResp`
are the envelopes of the two LLM calls; `none` models the call throwing
(any exception lands in the outer catch and falls through to full
regeneration). -/
def handleCategoryUpdate (basePrompt newPrompt : String) (cats : List Json)
    (analysisResp updateResp : Option Json) : UpdateOutcome :=
  if basePrompt = "" ∨ newPrompt = "" then .fullRegen none newPrompt
  else
    match analysisResp with
    | none => .fullRegen none newPrompt
    | some ar =>
      if !jsTruthy ar then .fullRegen none newPrompt
      else
        let analysis := parseAnalysis ar
        if !optStrictEq (jsGet analysis "intent") (some (.str "specific")) then
          .fullRegen none newPrompt
        else
          match jsGet analysis "targetCategories" with
          | some (.arr ts) =>
            if ts.isEmpty then .fullRegen none newPrompt
            else
              let tids := resolveTargetIds cats ts
              if tids.isEmpty then .fullRegen none newPrompt
              else
                let marked := markCategories cats tids
                match updateResp with
                | none => .fullRegen (some marked) newPrompt
                | some ur =>
                  if !jsTruthy ur then .fullRegen (some marked) newPrompt
                  else
                    match parseUpdateResult ur with
                    | .arr us => .specificDone marked (mergeCategories marked us)
                    | _ => .fullRegen (some marked) newPrompt
          | _ => .fullRegen none newPrompt

/-- Discriminator used by closed statements about updater outcomes. -/
def isFullRegen : UpdateOutcome → Bool
  | .fullRegen _ _ => true
  | .specificDone _ _ => false

/-- The final category array of a completed specific update (closed
statements use it to look inside an outcome without binders). -/
def finalOf : UpdateOutcome → Option (List Json)
  | .fullRegen _ _ => none
  | .specificDone _ F => some F

/-! ## Spec-side definition for claim C6 -/

/-- Modelled from the spec's words ("search the text for the first balanced
`[...]` substring"): scan to the first `[`, then take characters tracking
bracket depth until it returns to zero. -/
def takeBalanced : Nat → List Char → Nat → List Char → Option (List Char)
  | 0, _, _, _ => none
  | _+1, [], _, _ => none
  | fuel+1, c :: cs, depth, acc =>
    if c = '[' then takeBalanced fuel cs (depth + 1) (c :: acc)
    else if c = ']' then
      if depth = 1 then some (c :: acc).reverse
      else takeBalanced fuel cs (depth - 1) (c :: acc)
    else takeBalanced fuel cs depth (c :: acc)

def specFirstBalanced (s : String) : Option String :=
  match splitFirstCh '[' s.data with
  | none => none
  | some (_, after) => (takeBalanced (after.length + 1) after 1 ['[']).map (fun l => (⟨l⟩ : String))

/-! ## Auxiliary definitions used by the claim statements -/

/-- The fenced form of claim C9: `` ```json\n<t>\n``` ``. -/
def fenceWrap (t : String) : String := "```json\n" ++ t ++ "\n```"

/-- Pairwise-distinct key list (JS objects always satisfy this). -/
def distinctKeysB : List String → Bool
  | [] => true
  | k :: ks => !ks.contains k && distinctKeysB ks

/-- Top-level well-formedness of a record: object keys are duplicate-free,
as they always are for JavaScript objects. -/
def keysDistinct : Json → Bool
  | .obj fs => distinctKeysB (fs.map Prod.fst)
  | _ => true

def isObjJson : Json → Bool
  | .obj _ => true
  | _ => false

/-- The value is a defined string (used to say "this category has a string
id / name"). -/
def isStrOpt : Option Json → Bool
  | some (.str _) => true
  | _ => false

/-- The target list the classifier's parsed analysis carries (empty when
`targetCategories` is not an array). -/
def analysisTargets (ar : Json) : List Json :=
  match jsGet (parseAnalysis ar) "targetCategories" with
  | some (.arr ts) => ts
  | _ => []

/-- The resolved target id set of a run of the specific path, as a function
of the state and the classifier envelope. -/
def resolvedIdsOf (cats : List Json) (ar : Json) : List (Option Json) :=
  resolveTargetIds cats (analysisTargets ar)

/-- The classifier condition of line 626: a `specific` intent carrying a
non-empty `targetCategories` array. -/
def specificNonempty (a : Json) : Bool :=
  optStrictEq (jsGet a "intent") (some (.str "specific")) &&
    (match jsGet a "targetCategories" with
     | some (.arr ts) => !ts.isEmpty
     | _ => false)

/-- The update-record list a given update envelope produces (empty when no
parse attempt yields anything). -/
def updateListOf (ur : Option Json) : List Json :=
  match ur with
  | some u => (match parseUpdateResult u with | .arr us => us | _ => [])
  | none => []

/-- Neither an array nor a string (drives the extractor's else-branches). -/
def notArrStr : Option Json → Bool
  | some (.arr _) => false
  | some (.str _) => false
  | _ => true

/-- Not a string value. -/
def notStr : Option Json → Bool
  | some (.str _) => false
  | _ => true

/-- A primitive envelope (`typeof` is neither `'object'` for a non-null
value nor `'string'`). -/
def isPrimJson : Json → Bool
  | .null => true
  | .bool _ => true
  | .num _ => true
  | _ => false

/-- Not an array value (drives the `searchTerms` default of the
normalizer). -/
def notArr : Option Json → Bool
  | some (.arr _) => false
  | _ => true

/-- A `Json` value that is not an array (the `Array.isArray` failure case
of the merge guard). -/
def notArrJson : Json → Bool
  | .arr _ => false
  | _ => true

/-- Concrete categories used by witnesses and counterexamples: the spec's
`[{id:"a",name:"Garden Tools"}, {id:"b",name:"Pots"}]` example. -/
def gardenToolsCat : Json :=
  .obj [("id", .str "a"), ("name", .str "Garden Tools"), ("description", .str ""),
        ("searchTerms", .arr [.str "garden trowel"]), ("priority", .num 4),
        ("type", .str "tools")]

def potsCat : Json :=
  .obj [("id", .str "b"), ("name", .str "Pots"), ("description", .str ""),
        ("searchTerms", .arr [.str "pots"]), ("priority", .num 3),
        ("type", .str "containers")]

/-- A classifier envelope carrying a specific intent targeting "tools". -/
def specificToolsAnalysis : Json :=
  .obj [("intent", .str "specific"), ("targetCategories", .arr [.str "tools"])]

/-- A well-behaved update record for id "a". -/
def updRecA : Json :=
  .obj [("id", .str "a"), ("name", .str "New Garden Tools"),
        ("searchTerms", .arr [.str "blue trowel"])]

/-- Value of a decimal digit character. -/
def charVal (c : Char) : Nat := c.toNat - 48

/-- Numeric reading of a digit string (used to prove synthesized ids
injective). -/
def chainVal (l : List Char) : Nat := l.foldl (fun a c => 10 * a + charVal c) 0

/-! ## Whitespace-trimming lemmas -/

theorem dropWhile_append_of_all {p : Char → Bool} {ws l : List Char}
    (h : ws.all p = true) : (ws ++ l).dropWhile p = l.dropWhile p := by
  induction ws with
  | nil => rfl
  | cons a t ih =>
    simp only [List.all_cons, Bool.and_eq_true] at h
    simp [List.dropWhile_cons, h.1, ih h.2]

theorem dropWhile_of_head_neg {p : Char → Bool} {h : Char} {t : List Char}
    (hh : p h = false) : (h :: t).dropWhile p = h :: t := by
  simp [List.dropWhile_cons, hh]

theorem all_takeWhile (p : Char → Bool) (l : List Char) : (l.takeWhile p).all p = true := by
  induction l with
  | nil => rfl
  | cons a t ih =>
    by_cases hp : p a = true
    · simp [List.takeWhile_cons, hp, ih]
    · simp [List.takeWhile_cons, hp]

theorem dropWhile_eq_nil_of_all {p : Char → Bool} {ws : List Char}
    (h : ws.all p = true) : ws.dropWhile p = [] := by
  induction ws with
  | nil => rfl
  | cons a t ih =>
    simp only [List.all_cons, Bool.and_eq_true] at h
    simp [List.dropWhile_cons, h.1, ih h.2]

theorem dropWhile_head_false {p : Char → Bool} {h : Char} {t cs : List Char}
    (hh : cs.dropWhile p = h :: t) : p h = false := by
  induction cs with
  | nil => simp at hh
  | cons a l ih =>
    rw [List.dropWhile_cons] at hh
    by_cases hp : p a = true
    · rw [if_pos hp] at hh; exact ih hh
    · rw [if_neg hp] at hh
      cases hh
      simp only [Bool.not_eq_true] at hp
      exact hp

theorem trim_sandwich {p : Char → Bool} {ws1 ws2 cs : List Char}
    (h1 : ws1.all p = true) (h2 : ws2.all p = true) :
    trimListWith p (ws1 ++ cs ++ ws2) = trimListWith p cs := by
  unfold trimListWith
  rw [List.append_assoc, dropWhile_append_of_all h1]
  rcases hb : cs.dropWhile p with _ | ⟨h, t⟩
  · have hcs : cs.all p = true := by
      have halt := List.takeWhile_append_dropWhile p cs
      rw [hb, List.append_nil] at halt
      rw [← halt]; exact all_takeWhile p cs
    have hall : (cs ++ ws2).all p = true := by
      rw [List.all_append, hcs, h2]; rfl
    rw [dropWhile_eq_nil_of_all hall]
  · have hph : p h = false := dropWhile_head_false hb
    have hsplit : cs ++ ws2 = cs.takeWhile p ++ (h :: (t ++ ws2)) := by
      rw [← List.cons_append, ← List.append_assoc, ← hb, List.takeWhile_append_dropWhile]
    rw [hsplit, dropWhile_append_of_all (all_takeWhile p cs), dropWhile_of_head_neg hph]
    simp only [List.reverse_cons, List.reverse_append, List.append_assoc]
    rw [dropWhile_append_of_all (by rw [List.all_reverse]; exact h2)]

theorem trim_eq_self_of_ends {p : Char → Bool} {a z : Char} {mid : List Char}
    (ha : p a = false) (hz : p z = false) :
    trimListWith p (a :: (mid ++ [z])) = a :: (mid ++ [z]) := by
  unfold trimListWith
  rw [dropWhile_of_head_neg ha]
  have hrev : (a :: (mid ++ [z])).reverse = z :: (mid.reverse ++ [a]) := by
    simp
  rw [hrev, dropWhile_of_head_neg hz, ← hrev, List.reverse_reverse]

theorem trim_decomp (p : Char → Bool) (cs : List Char) :
    ∃ ws1 ws2, cs = ws1 ++ trimListWith p cs ++ ws2 ∧ ws1.all p = true ∧ ws2.all p = true := by
  refine ⟨cs.takeWhile p, ((cs.dropWhile p).reverse.takeWhile p).reverse, ?_,
    all_takeWhile p cs, by rw [List.all_reverse]; exact all_takeWhile _ _⟩
  unfold trimListWith
  have hkey : cs.dropWhile p =
      ((cs.dropWhile p).reverse.dropWhile p).reverse ++
        ((cs.dropWhile p).reverse.takeWhile p).reverse := by
    have h := congrArg List.reverse (List.takeWhile_append_dropWhile p (cs.dropWhile p).reverse)
    rw [List.reverse_append, List.reverse_reverse] at h
    exact h.symm
  calc cs = cs.takeWhile p ++ cs.dropWhile p := (List.takeWhile_append_dropWhile p cs).symm
    _ = cs.takeWhile p ++ (((cs.dropWhile p).reverse.dropWhile p).reverse ++
        ((cs.dropWhile p).reverse.takeWhile p).reverse) := by rw [← hkey]
    _ = cs.takeWhile p ++ ((cs.dropWhile p).reverse.dropWhile p).reverse ++
        ((cs.dropWhile p).reverse.takeWhile p).reverse := (List.append_assoc _ _ _).symm

/-! ## Parser consumption lemmas

`parseVal` only ever removes a prefix of its input, and a successfully
parsed array's consumed prefix runs from its opening `[` to its closing
`]`.  These shape facts connect `jsonParse` success to the syntactic form
of the trimmed text (used by the fence-stripping claims).
-/

theorem dropLit_decomp {lit cs r : List Char} (h : dropLit lit cs = some r) :
    cs = lit ++ r := by
  induction lit generalizing cs with
  | nil =>
    cases cs <;> simp [dropLit] at h <;> simp [h]
  | cons l ls ih =>
    cases cs with
    | nil => simp [dropLit] at h
    | cons c cs' =>
      simp only [dropLit] at h
      by_cases hc : c = l
      · rw [if_pos hc] at h
        subst hc
        simp [ih h]
      · rw [if_neg hc] at h
        cases h

theorem skipWs_decomp (cs : List Char) :
    ∃ ws, cs = ws ++ skipWs cs ∧ ws.all isJsonWs = true :=
  ⟨cs.takeWhile isJsonWs, (List.takeWhile_append_dropWhile _ _).symm, all_takeWhile _ _⟩

theorem parseStrBody_decomp :
    ∀ {fuel : Nat} {cs b rest : List Char}, parseStrBody fuel cs = some (b, rest) →
      ∃ mid, cs = mid ++ '"' :: rest := by
  intro fuel
  induction fuel with
  | zero => intro cs b rest h; simp [parseStrBody] at h
  | succ n ih =>
    intro cs b rest h
    cases cs with
    | nil => simp [parseStrBody] at h
    | cons c cs1 =>
      simp only [parseStrBody] at h
      by_cases hq : c = '"'
      · rw [if_pos hq] at h
        subst hq
        obtain ⟨rfl, rfl⟩ : ([] : List Char) = b ∧ cs1 = rest := by
          cases h; exact ⟨rfl, rfl⟩
        exact ⟨[], rfl⟩
      · rw [if_neg hq] at h
        by_cases hb : c = '\\'
        · rw [if_pos hb] at h
          subst hb
          cases cs1 with
          | nil => cases h
          | cons e cs2 =>
            dsimp only at h
            by_cases hu : e = 'u'
            · rw [if_pos hu] at h
              subst hu
              rcases cs2 with _ | ⟨h1, _ | ⟨h2, _ | ⟨h3, _ | ⟨h4, cs3⟩⟩⟩⟩ <;>
                  dsimp only at h <;> try cases h
              cases hv1 : hexVal h1 <;> cases hv2 : hexVal h2 <;>
                cases hv3 : hexVal h3 <;> cases hv4 : hexVal h4 <;>
                  rw [hv1, hv2, hv3, hv4] at h <;> dsimp only at h <;> try cases h
              rw [Option.map_eq_some'] at h
              obtain ⟨⟨b', r'⟩, hrec, heq⟩ := h
              obtain ⟨mid, hmid⟩ := ih hrec
              cases heq
              exact ⟨'\\' :: 'u' :: h1 :: h2 :: h3 :: h4 :: mid, by simp [hmid]⟩
            · rw [if_neg hu] at h
              cases hes : escCharMap e <;> rw [hes] at h
              · cases h
              · rw [Option.map_eq_some'] at h
                obtain ⟨⟨b', r'⟩, hrec, heq⟩ := h
                obtain ⟨mid, hmid⟩ := ih hrec
                cases heq
                exact ⟨'\\' :: e :: mid, by simp [hmid]⟩
        · rw [if_neg hb] at h
          by_cases hctl : c.toNat < 32
          · rw [if_pos hctl] at h; cases h
          · rw [if_neg hctl] at h
            rw [Option.map_eq_some'] at h
            obtain ⟨⟨b', r'⟩, hrec, heq⟩ := h
            obtain ⟨mid, hmid⟩ := ih hrec
            cases heq
            exact ⟨c :: mid, by simp [hmid]⟩

theorem parseNumFrac_suffix {cs2 fds cs3 : List Char}
    (h : parseNumFrac cs2 = some (fds, cs3)) : cs3 <:+ cs2 := by
  unfold parseNumFrac at h
  split at h
  · rename_i r
    split at h
    · cases h
    · cases h
      exact ((List.dropWhile_suffix _).trans (List.suffix_cons _ _))
  · cases h
    exact List.suffix_refl _

theorem parseNumExp_suffix {cs3 : List Char} {ex : Int} {rest : List Char}
    (h : parseNumExp cs3 = some (ex, rest)) : rest <:+ cs3 := by
  unfold parseNumExp at h
  split at h
  · cases h
    exact List.suffix_refl _
  · rename_i e r
    split at h
    · split at h
      all_goals dsimp only at h
      all_goals split at h
      all_goals try cases h
      · exact (List.dropWhile_suffix _).trans
          ((List.suffix_cons _ _).trans (List.suffix_cons _ _))
      · exact (List.dropWhile_suffix _).trans
          ((List.suffix_cons _ _).trans (List.suffix_cons _ _))
      · exact (List.dropWhile_suffix _).trans (List.suffix_cons _ _)
    · cases h
      exact List.suffix_refl _

theorem parseNumTok_suffix {cs : List Char} {q : Rat} {rest : List Char}
    (h : parseNumTok cs = some (q, rest)) : rest <:+ cs := by
  unfold parseNumTok at h
  have hcs1 : (match cs with
      | '-' :: r => ((true : Bool), r)
      | _ => ((false : Bool), cs)).2 <:+ cs := by
    split
    · exact List.suffix_cons _ _
    · exact List.suffix_refl _
  simp only at h
  split at h
  · cases h
  split at h
  · cases h
  split at h
  · cases h
  rename_i fds cs3 hfrac
  split at h
  · cases h
  rename_i ex rest' hexp
  cases h
  exact ((parseNumExp_suffix hexp).trans (parseNumFrac_suffix hfrac)).trans
    ((List.dropWhile_suffix _).trans hcs1)

/-- Bundled consumption facts for the three mutual parsers: a successful
parse leaves a suffix of the input, and a parsed array was consumed from
its opening `[` to its closing `]`. -/
theorem parser_consumption : ∀ fuel : Nat,
    (∀ cs v rest, parseVal fuel cs = some (v, rest) →
      rest <:+ cs ∧ ∀ xs, v = Json.arr xs → ∃ mid, cs = '[' :: (mid ++ ']' :: rest)) ∧
    (∀ cs vs rest, parseElems fuel cs = some (vs, rest) → ∃ mid, cs = mid ++ ']' :: rest) ∧
    (∀ cs fs rest, parseMems fuel cs = some (fs, rest) → ∃ mid, cs = mid ++ '}' :: rest) := by
  intro fuel
  induction fuel with
  | zero =>
    refine ⟨?_, ?_, ?_⟩
    · intro cs v rest h; simp [parseVal] at h
    · intro cs vs rest h; simp [parseElems] at h
    · intro cs fs rest h; simp [parseMems] at h
  | succ n ih =>
    obtain ⟨ihV, ihE, ihM⟩ := ih
    refine ⟨?_, ?_, ?_⟩
    · -- parseVal
      intro cs v rest h
      cases cs with
      | nil => simp [parseVal] at h
      | cons c cs1 =>
        simp only [parseVal] at h
        split_ifs at h with hn ht hf hq hlb hlc hnum
        · -- null
          rw [Option.map_eq_some'] at h
          obtain ⟨r, hd, heq⟩ := h
          cases heq
          subst hn
          refine ⟨⟨['n', 'u', 'l', 'l'], ?_⟩, fun xs hxs => by simp at hxs⟩
          have hlit := dropLit_decomp hd
          simp [hlit]
        · -- true
          rw [Option.map_eq_some'] at h
          obtain ⟨r, hd, heq⟩ := h
          cases heq
          subst ht
          refine ⟨⟨['t', 'r', 'u', 'e'], ?_⟩, fun xs hxs => by simp at hxs⟩
          have hlit := dropLit_decomp hd
          simp [hlit]
        · -- false
          rw [Option.map_eq_some'] at h
          obtain ⟨r, hd, heq⟩ := h
          cases heq
          subst hf
          refine ⟨⟨['f', 'a', 'l', 's', 'e'], ?_⟩, fun xs hxs => by simp at hxs⟩
          have hlit := dropLit_decomp hd
          simp [hlit]
        · -- string
          rw [Option.map_eq_some'] at h
          obtain ⟨⟨b, r⟩, hsb, heq⟩ := h
          cases heq
          subst hq
          obtain ⟨mid, hmid⟩ := parseStrBody_decomp hsb
          refine ⟨⟨'"' :: mid ++ ['"'], ?_⟩, fun xs hxs => by simp at hxs⟩
          simp [hmid]
        · -- array
          subst hlb
          obtain ⟨ws, hws, _⟩ := skipWs_decomp cs1
          split at h
          · rename_i rest1 heq
            cases h
            rw [heq] at hws
            constructor
            · exact ⟨'[' :: ws ++ [']'], by simp [hws]⟩
            · intro xs hxs
              cases hxs
              exact ⟨ws, by rw [hws]⟩
          · rename_i cs2 hnotbr
            split at h
            · rename_i vs rest1 helems
              cases h
              obtain ⟨mid2, hmid2⟩ := ihE _ _ _ helems
              rw [hmid2] at hws
              constructor
              · exact ⟨'[' :: ws ++ mid2 ++ [']'], by simp [hws]⟩
              · intro xs hxs
                cases hxs
                exact ⟨ws ++ mid2, by rw [hws]; simp⟩
            · cases h
        · -- object
          subst hlc
          obtain ⟨ws, hws, _⟩ := skipWs_decomp cs1
          split at h
          · rename_i rest1 heq
            cases h
            rw [heq] at hws
            refine ⟨⟨'{' :: ws ++ ['}'], by simp [hws]⟩, fun xs hxs => by simp at hxs⟩
          · rename_i cs2 hnotbr
            split at h
            · rename_i fs rest1 hmems
              cases h
              obtain ⟨mid2, hmid2⟩ := ihM _ _ _ hmems
              rw [hmid2] at hws
              refine ⟨⟨'{' :: ws ++ mid2 ++ ['}'], by simp [hws]⟩, fun xs hxs => by simp at hxs⟩
            · cases h
        · -- number
          rw [Option.map_eq_some'] at h
          obtain ⟨⟨qv, r⟩, hnt, heq⟩ := h
          cases heq
          exact ⟨parseNumTok_suffix hnt, fun xs hxs => by simp at hxs⟩
    · -- parseElems
      intro cs vs rest h
      simp only [parseElems] at h
      split at h
      · cases h
      rename_i v r hpv
      obtain ⟨p1, hp1⟩ := (ihV _ _ _ hpv).1
      obtain ⟨wsA, hwsA, _⟩ := skipWs_decomp r
      split at h
      · -- comma
        rename_i r2 heq1
        rw [heq1] at hwsA
        obtain ⟨wsB, hwsB, _⟩ := skipWs_decomp r2
        split at h
        · rename_i vs1 rest1 hpe
          cases h
          obtain ⟨mid1, hmid1⟩ := ihE _ _ _ hpe
          rw [hmid1] at hwsB
          refine ⟨p1 ++ wsA ++ ',' :: (wsB ++ mid1), ?_⟩
          rw [← hp1, hwsA, hwsB]
          simp
        · cases h
      · -- closing bracket
        rename_i rest1 heq1
        cases h
        rw [heq1] at hwsA
        refine ⟨p1 ++ wsA, ?_⟩
        rw [← hp1, hwsA]
        simp
      · cases h
    · -- parseMems
      intro cs fs rest h
      simp only [parseMems] at h
      split at h
      · rename_i cs1
        split at h
        · cases h
        rename_i k r hsb
        obtain ⟨midS, hmidS⟩ := parseStrBody_decomp hsb
        obtain ⟨wsA, hwsA, _⟩ := skipWs_decomp r
        split at h
        · rename_i r2 heqA
          rw [heqA] at hwsA
          obtain ⟨wsB, hwsB, _⟩ := skipWs_decomp r2
          split at h
          · cases h
          rename_i v r3 hpv
          obtain ⟨p2, hp2⟩ := (ihV _ _ _ hpv).1
          obtain ⟨wsC, hwsC, _⟩ := skipWs_decomp r3
          split at h
          · -- comma
            rename_i r4 heqC
            rw [heqC] at hwsC
            obtain ⟨wsD, hwsD, _⟩ := skipWs_decomp r4
            split at h
            · rename_i fs1 rest1 hpm
              cases h
              obtain ⟨midM, hmidM⟩ := ihM _ _ _ hpm
              rw [hmidM] at hwsD
              refine ⟨'"' :: midS ++ '"' :: wsA ++ ':' :: wsB ++ p2 ++ wsC ++
                ',' :: (wsD ++ midM), ?_⟩
              rw [hmidS, hwsA, hwsB, ← hp2, hwsC, hwsD]
              simp
            · cases h
          · -- closing brace
            rename_i rest1 heqC
            cases h
            rw [heqC] at hwsC
            refine ⟨'"' :: midS ++ '"' :: wsA ++ ':' :: wsB ++ p2 ++ wsC, ?_⟩
            rw [hmidS, hwsA, hwsB, ← hp2, hwsC]
            simp
          · cases h
        · cases h
      · cases h

/-! ## Shape of successfully parsed array texts -/

theorem jsonParseList_arr_shape {cs : List Char} {xs : List Json}
    (h : jsonParseList cs = some (Json.arr xs)) :
    ∃ mid, trimListWith isJsonWs cs = '[' :: (mid ++ [']']) := by
  simp only [jsonParseList] at h
  split at h
  · rename_i v rest hpv
    cases h
    obtain ⟨mid, hmid⟩ := ((parser_consumption _).1 _ _ _ hpv).2 _ rfl
    exact ⟨mid, hmid⟩
  · cases h

theorem jsonWs_le_jsWs {c : Char} (h : isJsonWs c = true) : isJsWs c = true := by
  simp [isJsWs, h]

theorem all_jsWs_of_all_jsonWs {l : List Char} (h : l.all isJsonWs = true) :
    l.all isJsWs = true := by
  rw [List.all_eq_true] at h ⊢
  exact fun x hx => jsonWs_le_jsWs (h x hx)

theorem jsTrim_data_of_parse_arr {s : String} {xs : List Json}
    (h : jsonParse s = some (Json.arr xs)) :
    (jsTrim s).data = trimListWith isJsonWs s.data ∧
      ∃ mid, (jsTrim s).data = '[' :: (mid ++ [']']) := by
  obtain ⟨mid, hmid⟩ := jsonParseList_arr_shape h
  obtain ⟨ws1, ws2, hdec, hws1, hws2⟩ := trim_decomp isJsonWs s.data
  have hdata : (jsTrim s).data = trimListWith isJsWs s.data := rfl
  have heq : trimListWith isJsWs s.data = trimListWith isJsonWs s.data := by
    conv_lhs => rw [hdec]
    rw [trim_sandwich (all_jsWs_of_all_jsonWs hws1) (all_jsWs_of_all_jsonWs hws2), hmid]
    rw [trim_eq_self_of_ends (by decide) (by decide), ← hmid]
  rw [hdata, heq]
  exact ⟨rfl, mid, hmid⟩

theorem jsonParse_jsTrim {s : String} {xs : List Json}
    (h : jsonParse s = some (Json.arr xs)) :
    jsonParse (jsTrim s) = some (Json.arr xs) := by
  obtain ⟨hdata, mid, hmid⟩ := jsTrim_data_of_parse_arr h
  have htt : trimListWith isJsonWs (jsTrim s).data = trimListWith isJsonWs s.data := by
    rw [hmid, trim_eq_self_of_ends (by decide) (by decide), ← hmid, hdata]
  show jsonParseList (jsTrim s).data = some (Json.arr xs)
  unfold jsonParseList
  rw [htt]
  exact h

theorem stripLeadFence_of_head {s : String} {c : Char} {l : List Char}
    (hd : s.data = c :: l) (hc : c ≠ '`') : stripLeadFence s = s := by
  unfold stripLeadFence
  split
  · rename_i rest heq
    rw [hd] at heq
    cases heq
    exact absurd rfl hc
  · rfl

theorem stripTrailFence_of_last {s : String} {c : Char} {l : List Char}
    (hd : s.data.reverse = c :: l) (hc : c ≠ '`') : stripTrailFence s = s := by
  unfold stripTrailFence
  split
  · rename_i rest heq
    rw [hd] at heq
    cases heq
    exact absurd rfl hc
  · rfl

theorem string_mk_data (s : String) : (⟨s.data⟩ : String) = s := rfl

theorem normText_of_parse_arr {s : String} {xs : List Json}
    (h : jsonParse s = some (Json.arr xs)) : normText s = jsTrim s := by
  obtain ⟨_, mid, hmid⟩ := jsTrim_data_of_parse_arr h
  have h1 : stripLeadFence (jsTrim s) = jsTrim s :=
    stripLeadFence_of_head hmid (by decide)
  have hrev : (jsTrim s).data.reverse = ']' :: (mid.reverse ++ ['[']) := by
    rw [hmid]; simp
  have h2 : stripTrailFence (jsTrim s) = jsTrim s :=
    stripTrailFence_of_last hrev (by decide)
  have h3 : jsTrim (jsTrim s) = jsTrim s := by
    show (⟨trimListWith isJsWs (jsTrim s).data⟩ : String) = jsTrim s
    rw [hmid, trim_eq_self_of_ends (by decide) (by decide), ← hmid, string_mk_data]
  unfold normText
  rw [h1, h2, h3]

theorem parseCats_of_parse_arr {s : String} {xs : List Json}
    (h : jsonParse s = some (Json.arr xs)) : parseCats s = some xs := by
  simp only [parseCats]
  rw [normText_of_parse_arr h, jsonParse_jsTrim h]
  rfl

/-! ## Fence wrapping -/

theorem fenceWrap_data (t : String) :
    (fenceWrap t).data =
      '`' :: '`' :: '`' :: 'j' :: 's' :: 'o' :: 'n' :: '\n' ::
        (t.data ++ ['\n', '`', '`', '`']) := by
  show (("```json\n" ++ t) ++ "\n```").data = _
  rw [String.data_append, String.data_append]
  rfl

theorem normText_fenceWrap (t : String) : normText (fenceWrap t) = jsTrim t := by
  have htrim : jsTrim (fenceWrap t) = fenceWrap t := by
    show (⟨trimListWith isJsWs (fenceWrap t).data⟩ : String) = fenceWrap t
    have hshape : (fenceWrap t).data =
        '`' :: (('`' :: '`' :: 'j' :: 's' :: 'o' :: 'n' :: '\n' ::
          (t.data ++ ['\n', '`', '`'])) ++ ['`']) := by
      rw [fenceWrap_data]; simp
    rw [hshape, trim_eq_self_of_ends (by decide) (by decide), ← hshape, string_mk_data]
  have hlead : stripLeadFence (fenceWrap t) =
      (⟨t.data ++ ['\n', '`', '`', '`']⟩ : String) := rfl
  have htail : stripTrailFence (⟨t.data ++ ['\n', '`', '`', '`']⟩ : String) =
      (⟨t.data ++ ['\n']⟩ : String) := by
    unfold stripTrailFence
    have hrev : ((⟨t.data ++ ['\n', '`', '`', '`']⟩ : String)).data.reverse =
        '`' :: '`' :: '`' :: ('\n' :: t.data.reverse) := by
      show (t.data ++ ['\n', '`', '`', '`']).reverse = _
      simp
    rw [hrev]
    show (⟨('\n' :: t.data.reverse).reverse⟩ : String) = _
    have : ('\n' :: t.data.reverse).reverse = t.data ++ ['\n'] := by simp
    rw [this]
  have hfinal : jsTrim (⟨t.data ++ ['\n']⟩ : String) = jsTrim t := by
    show (⟨trimListWith isJsWs (t.data ++ ['\n'])⟩ : String) = _
    have : trimListWith isJsWs (t.data ++ ['\n']) = trimListWith isJsWs t.data := by
      have hsand := @trim_sandwich isJsWs [] ['\n'] t.data rfl (by decide)
      simpa using hsand
    rw [this]
    rfl
  unfold normText
  rw [htrim, hlead, htail, hfinal]

theorem parseCats_congr {a b : String} (h : normText a = normText b) :
    parseCats a = parseCats b := by
  unfold parseCats
  rw [h]

/-! ## Object field lemmas -/

theorem getProp_append (a b : List (String × Json)) (q : String) :
    getProp (a ++ b) q =
      match getProp a q with
      | some v => some v
      | none => getProp b q := by
  induction a with
  | nil => rfl
  | cons p fs ih =>
    obtain ⟨k, v⟩ := p
    by_cases hk : k = q
    · simp [getProp, hk]
    · simp [getProp, hk, ih]

theorem getProp_eq_none_of_not_any {fs : List (String × Json)} {k : String}
    (h : fs.any (fun p => p.1 = k) = false) : getProp fs k = none := by
  induction fs with
  | nil => rfl
  | cons p fs ih =>
    simp only [List.any_cons, Bool.or_eq_false_iff] at h
    have hk : ¬p.1 = k := by
      have := h.1
      simpa using this
    obtain ⟨k0, v0⟩ := p
    simp only [getProp]
    rw [if_neg (by simpa using hk)]
    exact ih h.2

theorem getProp_map_replace {fs : List (String × Json)} {k : String} {v : Json} {q : String}
    (hq : q ≠ k) :
    getProp (fs.map (fun p => if p.1 = k then (k, v) else p)) q = getProp fs q := by
  induction fs with
  | nil => rfl
  | cons p fs ih =>
    obtain ⟨k0, v0⟩ := p
    simp only [List.map_cons]
    dsimp only
    by_cases hk0 : k0 = k
    · subst hk0
      rw [if_pos rfl]
      simp only [getProp]
      rw [if_neg (fun hh => hq hh.symm), if_neg (fun hh => hq hh.symm)]
      exact ih
    · rw [if_neg hk0]
      simp only [getProp]
      by_cases hq0 : k0 = q
      · rw [if_pos hq0, if_pos hq0]
      · rw [if_neg hq0, if_neg hq0]
        exact ih

theorem getProp_map_replace_hit {fs : List (String × Json)} {k : String} {v : Json}
    (hany : fs.any (fun p => p.1 = k) = true) :
    getProp (fs.map (fun p => if p.1 = k then (k, v) else p)) k = some v := by
  induction fs with
  | nil => simp at hany
  | cons p fs ih =>
    obtain ⟨k0, v0⟩ := p
    simp only [List.map_cons]
    dsimp only
    by_cases hk0 : k0 = k
    · subst hk0
      rw [if_pos rfl]
      simp [getProp]
    · rw [if_neg hk0]
      simp only [getProp]
      rw [if_neg hk0]
      apply ih
      simp only [List.any_cons] at hany
      rcases Bool.or_eq_true_iff.mp hany with h1 | h1
      · exact absurd (by simpa using h1) hk0
      · exact h1

theorem getProp_setKey (fs : List (String × Json)) (k : String) (v : Json) (q : String) :
    getProp (setKey fs k v) q = if q = k then some v else getProp fs q := by
  unfold setKey
  split
  · rename_i hany
    by_cases hq : q = k
    · subst hq
      rw [if_pos rfl, getProp_map_replace_hit hany]
    · rw [if_neg hq, getProp_map_replace hq]
  · rename_i hany
    rw [getProp_append]
    have hanyF : fs.any (fun p => p.1 = k) = false := by
      simp only [Bool.not_eq_true] at hany
      exact hany
    have hnone : getProp fs k = none := getProp_eq_none_of_not_any hanyF
    by_cases hq : q = k
    · subst hq
      rw [hnone]
      simp [getProp]
    · rw [if_neg hq]
      cases hgp : getProp fs q
      · dsimp only
        simp only [getProp]
        rw [if_neg (fun hh => hq hh.symm)]
      · rfl

theorem getProp_none_of_keys_not_contains {gs : List (String × Json)} {k : String}
    (h : (gs.map Prod.fst).contains k = false) : getProp gs k = none := by
  apply getProp_eq_none_of_not_any
  induction gs with
  | nil => rfl
  | cons p gs ih =>
    obtain ⟨k0, v0⟩ := p
    simp only [List.map_cons, List.contains_cons, Bool.or_eq_false_iff] at h
    simp only [List.any_cons, Bool.or_eq_false_iff]
    constructor
    · simp only [beq_eq_false_iff_ne] at h
      simpa using fun hh => h.1 hh.symm
    · exact ih h.2

theorem getProp_foldl_setKey :
    ∀ (gs A : List (String × Json)) (q : String),
      distinctKeysB (gs.map Prod.fst) = true →
      getProp (gs.foldl (fun acc kv => setKey acc kv.1 kv.2) A) q =
        match getProp gs q with
        | some v => some v
        | none => getProp A q := by
  intro gs
  induction gs with
  | nil => intro A q _; rfl
  | cons kv gs ih =>
    intro A q h
    obtain ⟨k0, v0⟩ := kv
    simp only [List.map_cons, distinctKeysB, Bool.and_eq_true] at h
    obtain ⟨hnc, hdist⟩ := h
    simp only [List.foldl_cons]
    rw [ih _ _ hdist]
    by_cases hq : q = k0
    · subst hq
      have hgnone : getProp gs q = none :=
        getProp_none_of_keys_not_contains (by simpa using hnc)
      rw [hgnone]
      dsimp only
      rw [getProp_setKey, if_pos rfl]
      simp [getProp]
    · have hcons : getProp ((k0, v0) :: gs) q = getProp gs q := by
        simp only [getProp]
        rw [if_neg (fun hh => hq hh.symm)]
      rw [hcons]
      cases hgp : getProp gs q
      · dsimp only
        rw [getProp_setKey, if_neg hq]
      · rfl

theorem jsGet_objSpread {cat : Json} {gs : List (String × Json)} (q : String)
    (hdist : distinctKeysB (gs.map Prod.fst) = true) :
    getProp (objSpread cat (.obj gs)) q =
      match getProp gs q with
      | some v => some v
      | none => getProp (enumPropsOf cat) q :=
  getProp_foldl_setKey gs (enumPropsOf cat) q hdist

theorem jsGet_setIsUpdating (cat : Json) (b : Bool) (q : String) :
    jsGet (setIsUpdating cat b) q =
      if q = "isUpdating" then some (.bool b) else getProp (enumPropsOf cat) q :=
  getProp_setKey _ _ _ _

theorem enumProps_getProp_of_obj {c : Json} (hobj : isObjJson c = true) (q : String) :
    getProp (enumPropsOf c) q = jsGet c q := by
  cases c <;> simp [isObjJson] at hobj ⊢
  rfl

theorem jsGet_some_isObj {u : Json} {k : String} {v : Json}
    (h : jsGet u k = some v) : isObjJson u = true := by
  cases u with
  | obj fs => rfl
  | null => simp [jsGet] at h
  | bool b => simp [jsGet] at h
  | num q => simp [jsGet] at h
  | str s => simp [jsGet] at h
  | arr xs => simp [jsGet] at h

/-! ## Digit rendering lemmas (injectivity of synthesized ids) -/

@[simp] theorem data_mk (l : List Char) : (String.mk l).data = l := rfl

theorem charVal_digitCh (n : Nat) : charVal (digitCh n) = n % 10 := by
  unfold digitCh
  have h10 : n % 10 < 10 := Nat.mod_lt _ (by norm_num)
  set m := n % 10 with hm
  interval_cases m <;> rfl

theorem chainVal_append_digit (l : List Char) (c : Char) :
    chainVal (l ++ [c]) = 10 * chainVal l + charVal c := by
  unfold chainVal
  rw [List.foldl_append]
  rfl

theorem natDigitsAux_val : ∀ fuel n, n ≤ fuel → chainVal (natDigitsAux fuel n) = n := by
  intro fuel
  induction fuel with
  | zero =>
    intro n h
    interval_cases n
    rfl
  | succ f ih =>
    intro n h
    unfold natDigitsAux
    by_cases hn : n = 0
    · subst hn
      simp [chainVal]
    · rw [if_neg hn, chainVal_append_digit, charVal_digitCh]
      have hdiv : n / 10 < n := Nat.div_lt_self (by omega) (by norm_num)
      rw [ih (n / 10) (by omega)]
      omega

theorem natToChars_val (n : Nat) : chainVal (natToChars n) = n := by
  unfold natToChars
  by_cases hn : n = 0
  · subst hn; rfl
  · rw [if_neg hn]
    exact natDigitsAux_val (n + 1) n (by omega)

theorem natToChars_inj {a b : Nat} (h : natToChars a = natToChars b) : a = b := by
  have := congrArg chainVal h
  rwa [natToChars_val, natToChars_val] at this

theorem synthIdStr_inj (now : Nat) {i j : Nat} (h : synthIdStr now i = synthIdStr now j) :
    i = j := by
  unfold synthIdStr natToString at h
  have hd := congrArg String.data h
  simp only [String.data_append, data_mk] at hd
  exact natToChars_inj (List.append_cancel_left hd)

/-! ## Normalizer field lemmas -/

theorem normalizeOne_fields (now idx : Nat) (c : Json) :
    jsGet (normalizeOne now idx c) "id" =
      some (nullishD (jsGet c "id") (.str (synthIdStr now idx))) ∧
    jsGet (normalizeOne now idx c) "name" =
      some (.str (jsToString (nullishD (nnOr (jsGet c "name") (jsGet c "title"))
        (.str "Untitled")))) ∧
    jsGet (normalizeOne now idx c) "description" =
      some (.str (jsToString (nullishD (jsGet c "description") (.str "")))) ∧
    jsGet (normalizeOne now idx c) "searchTerms" =
      some (.arr (match jsGet c "searchTerms" with
        | some (.arr ts) => ts.map (fun t => Json.str (jsToString t))
        | _ => [])) ∧
    jsGet (normalizeOne now idx c) "priority" =
      some (.num (match jsToNumberOpt (jsGet c "priority") with
        | some q => q
        | none => 3)) ∧
    jsGet (normalizeOne now idx c) "type" =
      some (.str (if allowedTypes.contains
          (jsToString (nullishD (jsGet c "type") (.str "other")))
        then jsToString (nullishD (jsGet c "type") (.str "other")) else "other")) := by
  simp only [normalizeOne]
  by_cases hr : jsTruthyOpt (jsGet c "reason") = true
  · rw [if_pos hr]
    refine ⟨?_, ?_, ?_, ?_, ?_, ?_⟩ <;> simp [jsGet, getProp]
  · rw [if_neg hr]
    refine ⟨?_, ?_, ?_, ?_, ?_, ?_⟩ <;> simp [jsGet, getProp]

theorem normalizeFrom_length (now : Nat) : ∀ (i : Nat) (xs : List Json),
    (normalizeFrom now i xs).length = xs.length := by
  intro i xs
  induction xs generalizing i with
  | nil => rfl
  | cons c cs ih => simp [normalizeFrom, ih]

theorem normalizeFrom_getElem? (now : Nat) :
    ∀ (xs : List Json) (i j : Nat),
      (normalizeFrom now i xs)[j]? = xs[j]?.map (normalizeOne now (i + j)) := by
  intro xs
  induction xs with
  | nil => intro i j; simp [normalizeFrom]
  | cons c cs ih =>
    intro i j
    cases j with
    | zero => simp [normalizeFrom]
    | succ j =>
      simp only [normalizeFrom, List.getElem?_cons_succ]
      rw [ih (i + 1) j]
      have he : i + 1 + j = i + (j + 1) := by omega
      rw [he]

/-! ## Updater characterization -/

theorem analysisTargets_eq {ar : Json} {ts : List Json}
    (h : jsGet (parseAnalysis ar) "targetCategories" = some (.arr ts)) :
    analysisTargets ar = ts := by
  unfold analysisTargets
  rw [h]

theorem handle_specific_inv {bp np : String} {cats : List Json} {ar : Json}
    {ur : Option Json} {M F : List Json}
    (h : handleCategoryUpdate bp np cats (some ar) ur = .specificDone M F) :
    ∃ ts u us, jsGet (parseAnalysis ar) "targetCategories" = some (.arr ts) ∧
      resolveTargetIds cats ts ≠ [] ∧
      M = markCategories cats (resolveTargetIds cats ts) ∧
      ur = some u ∧ parseUpdateResult u = .arr us ∧
      F = mergeCategories M us := by
  unfold handleCategoryUpdate at h
  split at h
  · cases h
  dsimp only at h
  split at h
  · cases h
  split at h
  · cases h
  split at h
  · rename_i ts heqT
    split at h
    · cases h
    rename_i hne
    split at h
    · cases h
    rename_i hids
    split at h
    · cases h
    rename_i u
    split at h
    · cases h
    split at h
    · rename_i us heqU
      cases h
      exact ⟨ts, u, us, heqT, by simpa using hids, rfl, rfl, heqU, rfl⟩
    · cases h
  · cases h

theorem handle_regen_marked_inv {bp np : String} {cats : List Json} {ar : Json}
    {ur : Option Json} {M : List Json} {p : String}
    (h : handleCategoryUpdate bp np cats (some ar) ur = .fullRegen (some M) p) :
    ∃ ts, jsGet (parseAnalysis ar) "targetCategories" = some (.arr ts) ∧
      M = markCategories cats (resolveTargetIds cats ts) ∧ p = np := by
  unfold handleCategoryUpdate at h
  split at h
  · cases h
  dsimp only at h
  split at h
  · cases h
  split at h
  · cases h
  split at h
  · rename_i ts heqT
    split at h
    · cases h
    split at h
    · cases h
    split at h
    · cases h
      exact ⟨ts, heqT, rfl, rfl⟩
    split at h
    · cases h
      exact ⟨ts, heqT, rfl, rfl⟩
    split at h
    · cases h
    · cases h
      exact ⟨ts, heqT, rfl, rfl⟩
  · cases h

/-! ## Bracket extraction helpers -/

theorem splitFirstCh_of_decomp {c : Char} {pre rest : List Char} (h : c ∉ pre) :
    splitFirstCh c (pre ++ c :: rest) = some (pre, rest) := by
  induction pre with
  | nil => simp [splitFirstCh]
  | cons a l ih =>
    have ha : a ≠ c := fun hh => h (hh ▸ List.mem_cons_self a l)
    have hl : c ∉ l := fun hh => h (List.mem_cons_of_mem a hh)
    simp only [List.cons_append, splitFirstCh, List.append_eq]
    rw [if_neg (fun hh => ha hh), ih hl]
    rfl

theorem extractBracketSub_eq {s : String} {pre mid post : List Char}
    (hdec : s.data = pre ++ '[' :: (mid ++ ']' :: post))
    (hpre : '[' ∉ pre) (hpost : ']' ∉ post) :
    extractBracketSub s = some ⟨'[' :: (mid ++ [']'])⟩ := by
  unfold extractBracketSub
  rw [hdec, splitFirstCh_of_decomp hpre]
  dsimp only
  have h2 : (mid ++ ']' :: post).reverse = post.reverse ++ ']' :: mid.reverse := by
    simp
  rw [h2, splitFirstCh_of_decomp (by simpa using hpost)]
  dsimp only
  simp

/-! ## Extractor reduction helper -/

theorem extractResponse_obj_notout {fs : List (String × Json)}
    (hno : notArrStr (getProp fs "output") = true) :
    extractResponse (.obj fs) =
      (if jsTruthyOpt (getProp fs "data") then
        match (getProp fs "data").bind (fun d => jsGet d "output") with
        | some (.arr xs) => .categories xs
        | some (.str s) => .text s
        | _ => .nothing
      else
        match getProp fs "text" with
        | some (.str s) => .text s
        | _ =>
          match getProp fs "content" with
          | some (.str s) => .text s
          | _ => .nothing) := by
  unfold extractResponse
  dsimp only
  rcases ho : getProp fs "output" with _ | v
  · rfl
  · cases v <;> first
      | rfl
      | (rw [ho] at hno; simp [notArrStr] at hno)

/-! ## Synthesized id sequence -/

theorem normalizeFrom_ids (now : Nat) :
    ∀ (i : Nat) (xs : List Json), (∀ c ∈ xs, (jsGet c "id").isNone = true) →
      (normalizeFrom now i xs).map (fun o => jsGet o "id") =
        (List.range' i xs.length).map (fun j => some (.str (synthIdStr now j))) := by
  intro i xs
  induction xs generalizing i with
  | nil => intro _; rfl
  | cons c cs ih =>
    intro h
    have hc : (jsGet c "id").isNone = true := h c (List.mem_cons_self c cs)
    have hcs : ∀ x ∈ cs, (jsGet x "id").isNone = true :=
      fun x hx => h x (List.mem_cons_of_mem c hx)
    simp only [normalizeFrom, List.map_cons, List.length_cons, List.range'_succ]
    rw [ih (i + 1) hcs]
    congr 1
    have hid := (normalizeOne_fields now i c).1
    rw [hid]
    cases hcget : jsGet c "id"
    · rfl
    · rw [hcget] at hc
      simp at hc

/-! # Claim theorems -/

/-- C3: for every input array of categories, the Diversity Enforcer returns
the input array unchanged and in original order, followed by exactly one
synthesized template category for each required type entirely absent from
the input; in particular, when the input contains zero categories of type
`tools`, exactly one synthesized `tools` category (the hardcoded template)
appears in the appended tail. -/
theorem c3_diversity_enforcer (cats : List Json) :
    ∃ tail,
      enforceDiversity cats = cats ++ tail ∧
      tail = (requiredTypes.filter (fun t => !typePresent cats t)).map synthTemplate ∧
      (∀ t ∈ requiredTypes, jsGet (synthTemplate t) "type" = some (.str t)) ∧
      (typePresent cats "tools" = false →
        tail.filter (fun c => optStrictEq (jsGet c "type") (some (.str "tools"))) =
          [synthTemplate "tools"]) := by
  refine ⟨(requiredTypes.filter (fun t => !typePresent cats t)).map synthTemplate,
    ?_, rfl, ?_, ?_⟩
  · simp only [enforceDiversity]
    split
    · rfl
    · rename_i hlen
      have hnil : (requiredTypes.filter (fun t => !typePresent cats t)) = [] := by
        rcases hf : requiredTypes.filter (fun t => !typePresent cats t) with _ | ⟨a, l⟩
        · rfl
        · rw [hf] at hlen
          simp at hlen
      rw [hnil]
      simp
  · intro t ht
    fin_cases ht <;> rfl
  · intro htools
    by_cases h1 : typePresent cats "planning_app" = true <;>
      by_cases h2 : typePresent cats "consumables" = true <;>
        by_cases h3 : typePresent cats "containers" = true <;>
          simp [requiredTypes, htools, h1, h2, h3, Bool.not_eq_true] at * <;>
          simp [requiredTypes, htools, h1, h2, h3, synthTemplate, jsGet, getProp,
            optStrictEq, jsStrictEq]

/-- Witness for C3 at a concrete input with no `tools` category. -/
theorem c3_diversity_enforcer_witness :
    typePresent [synthTemplate "consumables"] "tools" = false ∧
    (enforceDiversity [synthTemplate "consumables"]).filter
        (fun c => optStrictEq (jsGet c "type") (some (.str "tools"))) =
      [synthTemplate "tools"] := by
  obtain ⟨tail, h1, h2, _, h4⟩ := c3_diversity_enforcer [synthTemplate "consumables"]
  have ht : typePresent [synthTemplate "consumables"] "tools" = false := rfl
  refine ⟨ht, ?_⟩
  rw [h1, List.filter_append, h4 ht]
  rfl

/-- C4: for every envelope whose extraction yields a text that fails JSON
parsing entirely (or yields nothing at all), the full-generation pipeline
returns a value rather than raising: it sets the non-empty parse-error
fallback batch, whose single search term is the first three words of the
user's prompt. -/
theorem c4_parse_fallback (now : Nat) (prompt : String) (resp : Json)
    (htr : jsTruthy resp = true) :
    (extractResponse resp = .nothing →
      generateCategoriesWithAI now prompt (some resp) = some (fallbackParseCats prompt)) ∧
    (∀ t, extractResponse resp = .text t → parseCats t = none →
      generateCategoriesWithAI now prompt (some resp) = some (fallbackParseCats prompt)) ∧
    fallbackParseCats prompt ≠ [] ∧
    (∃ rec, fallbackParseCats prompt = [rec] ∧
      jsGet rec "searchTerms" = some (.arr [.str (firstThreeWords prompt)])) := by
  refine ⟨?_, ?_, by simp [fallbackParseCats], ⟨_, rfl, ?_⟩⟩
  · intro hn
    simp [generateCategoriesWithAI, htr, hn]
  · intro t hx hp
    simp [generateCategoriesWithAI, htr, hx, hp]
  · simp [jsGet, getProp]

/-- Witness for C4: plain prose with no brackets produces the fallback. -/
theorem c4_parse_fallback_witness :
    jsTruthy (.str "I cannot help with that.") = true ∧
    parseCats "I cannot help with that." = none ∧
    generateCategoriesWithAI 7 "blue ceramic plant pots please"
        (some (.str "I cannot help with that.")) =
      some (fallbackParseCats "blue ceramic plant pots please") ∧
    fallbackParseCats "blue ceramic plant pots please" =
      [.obj [("id", .str "fallback-general"), ("name", .str "General Results"),
             ("description", .str "Broad search results"),
             ("searchTerms", .arr [.str "blue ceramic plant"]),
             ("priority", .num 3), ("type", .str "other")]] := by
  refine ⟨rfl, rfl, ?_, rfl⟩
  exact (c4_parse_fallback 7 "blue ceramic plant pots please"
    (.str "I cannot help with that.") rfl).2.1 "I cannot help with that." rfl rfl

/-- C6 counterexample: the claim says the normalizer parses the *first
balanced* `[...]` substring; on `"[1] [2]"` that substring is `"[1]"` and
parses to `[1]`, but the code's greedy regex takes `"[1] [2]"`, whose parse
fails, so the normalizer errors instead. -/
theorem c6_counterexample :
    parseCats "[1] [2]" = none ∧
    specFirstBalanced "[1] [2]" = some "[1]" ∧
    jsonParse "[1]" = some (.arr [.num 1]) :=
  ⟨rfl, rfl, rfl⟩

/-- C6 (amended): on direct-parse failure the Parser/Normalizer parses the
greedy bracket span of the sanitized text — the substring running from the
first `[` to the last `]` — rather than the first balanced substring; when
no such span exists it fails. -/
theorem c6_greedy_bracket (t : String) (hfail : jsonParse (normText t) = none) :
    (∀ pre mid post, (normText t).data = pre ++ '[' :: (mid ++ ']' :: post) →
      '[' ∉ pre → ']' ∉ post →
      parseCats t = (jsonParse ⟨'[' :: (mid ++ [']'])⟩).bind coerceParsed) ∧
    (extractBracketSub (normText t) = none → parseCats t = none) := by
  constructor
  · intro pre mid post hdec hpre hpost
    have hext : extractBracketSub (normText t) = some ⟨'[' :: (mid ++ [']'])⟩ :=
      extractBracketSub_eq hdec hpre hpost
    simp only [parseCats]
    rw [hfail, hext]
    dsimp only
    cases jsonParse ⟨'[' :: (mid ++ [']'])⟩ <;> rfl
  · intro hnone
    simp only [parseCats]
    rw [hfail, hnone]

/-- Witness for the amended C6 at a concrete multi-segment text. -/
theorem c6_greedy_bracket_witness :
    jsonParse (normText "x [1, 2] y") = none ∧
    parseCats "x [1, 2] y" = (jsonParse "[1, 2]").bind coerceParsed ∧
    (jsonParse "[1, 2]").bind coerceParsed = some [.num 1, .num 2] := by
  refine ⟨rfl, ?_, rfl⟩
  exact (c6_greedy_bracket "x [1, 2] y" rfl).1 "x ".data "1, 2".data " y".data
    rfl (by decide) (by decide)

/-- C9: for every text that is a valid JSON array, normalizing the fenced
text `` ```json\n<t>\n``` `` yields a result identical to normalizing the
unfenced text, through parsing and through the normalize-and-sort step. -/
theorem c9_fence_transparent (t : String) (xs : List Json)
    (h : jsonParse t = some (.arr xs)) :
    parseCats (fenceWrap t) = parseCats t ∧
    parseCats t = some xs ∧
    ∀ now, (parseCats (fenceWrap t)).map
        (fun l => sortByPrioDesc (normalizeCategories now l)) =
      (parseCats t).map (fun l => sortByPrioDesc (normalizeCategories now l)) := by
  have hft : normText (fenceWrap t) = normText t := by
    rw [normText_fenceWrap, normText_of_parse_arr h]
  have h1 : parseCats (fenceWrap t) = parseCats t := parseCats_congr hft
  exact ⟨h1, parseCats_of_parse_arr h, fun now => by rw [h1]⟩

/-- Witness for C9 at a concrete array text. -/
theorem c9_fence_transparent_witness :
    jsonParse "[1]" = some (.arr [.num 1]) ∧
    parseCats (fenceWrap "[1]") = parseCats "[1]" ∧
    parseCats "[1]" = some [.num 1] := by
  have h := c9_fence_transparent "[1]" [.num 1] rfl
  exact ⟨rfl, h.1, h.2.1⟩

/-- C10: for every parsed input array none of whose elements carries an
`id` field, the normalizer synthesizes for element `j` the id
`ai-generated-<now>-<j>` embedding that element's index together with the
timestamp, so all ids within the normalized batch are pairwise distinct. -/
theorem c10_synthesized_ids (now : Nat) (xs : List Json)
    (h : xs.all (fun c => (jsGet c "id").isNone) = true) :
    (normalizeCategories now xs).map (fun o => jsGet o "id") =
      (List.range' 0 xs.length).map (fun j => some (.str (synthIdStr now j))) ∧
    ((normalizeCategories now xs).map (fun o => jsGet o "id")).Nodup := by
  rw [List.all_eq_true] at h
  have hids := normalizeFrom_ids now 0 xs h
  refine ⟨hids, ?_⟩
  rw [show normalizeCategories now xs = normalizeFrom now 0 xs from rfl, hids]
  apply List.Nodup.map
  · intro a b hab
    have h1 : Json.str (synthIdStr now a) = Json.str (synthIdStr now b) :=
      Option.some.inj hab
    have h2 : synthIdStr now a = synthIdStr now b := by
      injection h1
    exact synthIdStr_inj now h2
  · exact List.nodup_range' 0 xs.length

/-- C7 counterexample: an envelope whose truthy `data` field fails the
`data.output` checks but which carries a string `text` field is NOT
extracted via the `text`/`content` fallback — extraction fails — because
the `text`/`content` checks sit on the `else` side of the `r.data` test. -/
theorem c7_counterexample :
    extractResponse (.obj [("data", .obj [("foo", .num 1)]), ("text", .str "[1]")]) =
      .nothing ∧
    Extracted.nothing ≠ Extracted.text "[1]" :=
  ⟨rfl, fun h => nomatch h⟩

/-- C7 (amended): the Response Text Extractor applies the ordered chain
(a) array envelope, (b) string envelope, (c) `output` array, (d) `output`
string, (e) the `data.output` array/string checks — but these are guarded
by the truthiness of the `data` field, and when `data` is truthy and
`data.output` is neither array nor string extraction fails outright; the
`text`/`content` fallback (f) applies only when `data` is absent or falsy;
and a primitive envelope fails. -/
theorem c7_extraction_chain (r : Json) :
    (∀ xs, r = .arr xs → extractResponse r = .categories xs) ∧
    (∀ s, r = .str s → extractResponse r = .text s) ∧
    (∀ fs, r = .obj fs →
      (∀ xs, getProp fs "output" = some (.arr xs) →
        extractResponse r = .categories xs) ∧
      (∀ s, getProp fs "output" = some (.str s) → extractResponse r = .text s) ∧
      (notArrStr (getProp fs "output") = true →
        (jsTruthyOpt (getProp fs "data") = true →
          (∀ xs, (getProp fs "data").bind (fun d => jsGet d "output") = some (.arr xs) →
            extractResponse r = .categories xs) ∧
          (∀ s, (getProp fs "data").bind (fun d => jsGet d "output") = some (.str s) →
            extractResponse r = .text s) ∧
          (notArrStr ((getProp fs "data").bind (fun d => jsGet d "output")) = true →
            extractResponse r = .nothing)) ∧
        (jsTruthyOpt (getProp fs "data") = false →
          (∀ s, getProp fs "text" = some (.str s) → extractResponse r = .text s) ∧
          (notStr (getProp fs "text") = true →
            (∀ s, getProp fs "content" = some (.str s) → extractResponse r = .text s) ∧
            (notStr (getProp fs "content") = true → extractResponse r = .nothing))))) ∧
    (isPrimJson r = true → extractResponse r = .nothing) := by
  refine ⟨?_, ?_, ?_, ?_⟩
  · intro xs h; subst h; rfl
  · intro s h; subst h; rfl
  · intro fs h
    subst h
    refine ⟨?_, ?_, ?_⟩
    · intro xs h1
      unfold extractResponse
      dsimp only
      rw [h1]
    · intro s h1
      unfold extractResponse
      dsimp only
      rw [h1]
    · intro hno
      rw [extractResponse_obj_notout hno]
      constructor
      · intro hdata
        rw [if_pos hdata]
        refine ⟨?_, ?_, ?_⟩
        · intro xs h2; rw [h2]
        · intro s h2; rw [h2]
        · intro h2
          rcases hdo : (getProp fs "data").bind (fun d => jsGet d "output") with _ | v
          · rfl
          · cases v <;> first
              | rfl
              | (rw [hdo] at h2; simp [notArrStr] at h2)
      · intro hdata
        rw [if_neg (by simp [hdata])]
        refine ⟨?_, ?_⟩
        · intro s h2; rw [h2]
        · intro h2
          constructor
          · intro s h3
            rcases hto : getProp fs "text" with _ | v
            · dsimp only
              rw [h3]
            · cases v <;> first
                | (dsimp only; rw [h3])
                | (rw [hto] at h2; simp [notStr] at h2)
          · intro h3
            rcases hto : getProp fs "text" with _ | v
            · dsimp only
              rcases hco : getProp fs "content" with _ | w
              · rfl
              · cases w <;> first
                  | rfl
                  | (rw [hco] at h3; simp [notStr] at h3)
            · cases v
              case str s => rw [hto] at h2; simp [notStr] at h2
              all_goals
                dsimp only
                rcases hco : getProp fs "content" with _ | w
                · rfl
                · cases w <;> first
                    | rfl
                    | (rw [hco] at h3; simp [notStr] at h3)
  · intro hp
    cases r <;> first
      | rfl
      | simp [isPrimJson] at hp

/-- Witness for the amended C7: a `text`-carrying envelope with no `data`
field is extracted via the fallback, and an `output` string is preferred. -/
theorem c7_extraction_chain_witness :
    extractResponse (.obj [("text", .str "[1]")]) = .text "[1]" ∧
    extractResponse (.obj [("output", .str "[2]"), ("text", .str "[1]")]) = .text "[2]" := by
  constructor
  · exact (((c7_extraction_chain (.obj [("text", .str "[1]")])).2.2.1 _ rfl).2.2
      rfl).2 rfl |>.1 "[1]" rfl
  · exact ((c7_extraction_chain (.obj [("output", .str "[2]"), ("text", .str "[1]")])).2.2.1
      _ rfl).2.1 "[2]" rfl

/-- C1 counterexample: the claim demands `type` collapse to `other` for any
input type outside the enumeration, but the code string-coerces the value
first: the array `["tools"]` stringifies to `"tools"`, which lies in the
enumeration, so it is kept — even though the input type is not one of the
enumerated values. -/
theorem c1_counterexample :
    parseCats "[\x7b\"type\": [\"tools\"]\x7d]" =
      some [.obj [("type", .arr [.str "tools"])]] ∧
    (allowedTypes.all (fun s => !jsStrictEq (.arr [.str "tools"]) (.str s))) = true ∧
    jsGet (normalizeOne 0 0 (.obj [("type", .arr [.str "tools"])])) "type" =
      some (.str "tools") ∧
    Json.str "tools" ≠ Json.str "other" :=
  ⟨rfl, rfl, rfl, by intro h; injection h with h2; simp at h2⟩

/-- C1 (amended): for every input text that is already a valid JSON array
(no fencing, no wrapping), the Parser/Normalizer yields exactly the array's
elements and the normalizer an output of the same length in which every
record has a defined `id`, a string `name`, a `searchTerms` list that
mirrors an array-valued input field and defaults to empty otherwise, a
`priority` equal to the coerced numeric input value when finite and `3`
otherwise, and a `type` equal to the string coercion of the input type
(absent/null defaulting to `other`) when that string is in the enumeration
and `other` otherwise. -/
theorem c1_normalizer_shape (now : Nat) (t : String) (xs : List Json)
    (h : jsonParse t = some (.arr xs)) :
    parseCats t = some xs ∧
    (normalizeCategories now xs).length = xs.length ∧
    ∀ j, j < xs.length → ∃ c o, xs[j]? = some c ∧
      (normalizeCategories now xs)[j]? = some o ∧
      (jsGet o "id").isSome = true ∧
      (∃ nm, jsGet o "name" = some (.str nm)) ∧
      (∃ ts, jsGet o "searchTerms" = some (.arr ts) ∧
        (∀ us, jsGet c "searchTerms" = some (.arr us) →
          ts = us.map (fun u => Json.str (jsToString u))) ∧
        (notArr (jsGet c "searchTerms") = true → ts = [])) ∧
      (∀ q, jsToNumberOpt (jsGet c "priority") = some q →
        jsGet o "priority" = some (.num q)) ∧
      (jsToNumberOpt (jsGet c "priority") = none →
        jsGet o "priority" = some (.num 3)) ∧
      jsGet o "type" = some (.str
        (if allowedTypes.contains (jsToString (nullishD (jsGet c "type") (.str "other")))
         then jsToString (nullishD (jsGet c "type") (.str "other")) else "other")) := by
  refine ⟨parseCats_of_parse_arr h, normalizeFrom_length now 0 xs, ?_⟩
  intro j hj
  have hget : xs[j]? = some xs[j] := List.getElem?_eq_getElem hj
  refine ⟨xs[j], normalizeOne now j xs[j], hget, ?_, ?_⟩
  · rw [show normalizeCategories now xs = normalizeFrom now 0 xs from rfl,
      normalizeFrom_getElem? now xs 0 j, hget]
    simp
  · obtain ⟨hid, hname, _, hterms, hprio, htype⟩ := normalizeOne_fields now j xs[j]
    refine ⟨by rw [hid]; rfl, ⟨_, hname⟩, ?_, ?_, ?_, htype⟩
    · refine ⟨_, hterms, ?_, ?_⟩
      · intro us hus
        rw [hus]
      · intro hna
        rcases hst : jsGet xs[j] "searchTerms" with _ | v
        · rfl
        · cases v <;> first
            | rfl
            | (rw [hst] at hna; simp [notArr] at hna)
    · intro q hq
      rw [hprio, hq]
    · intro hq
      rw [hprio, hq]

/-- Witness for the amended C1 at a concrete array text. -/
theorem c1_normalizer_shape_witness :
    jsonParse "[\x7b\"name\": \"A\", \"priority\": 5, \"type\": \"tools\"\x7d]" =
      some (.arr [.obj [("name", .str "A"), ("priority", .num 5), ("type", .str "tools")]]) ∧
    parseCats "[\x7b\"name\": \"A\", \"priority\": 5, \"type\": \"tools\"\x7d]" =
      some [.obj [("name", .str "A"), ("priority", .num 5), ("type", .str "tools")]] ∧
    (normalizeCategories 7
      [.obj [("name", .str "A"), ("priority", .num 5), ("type", .str "tools")]]).length = 1 := by
  refine ⟨rfl, ?_, ?_⟩
  · exact (c1_normalizer_shape 7 "[\x7b\"name\": \"A\", \"priority\": 5, \"type\": \"tools\"\x7d]"
      [.obj [("name", .str "A"), ("priority", .num 5), ("type", .str "tools")]] rfl).1
  · exact (c1_normalizer_shape 7 "[\x7b\"name\": \"A\", \"priority\": 5, \"type\": \"tools\"\x7d]"
      [.obj [("name", .str "A"), ("priority", .num 5), ("type", .str "tools")]] rfl).2.1

/-- C8: the merge step maps over every category of the current array; when
an update record with strictly-equal `id` is found its fields shallow-
overwrite the category's fields and `isUpdating` becomes `false`; when no
record matches, the category's fields are unchanged and `isUpdating`
becomes `false` (a no-op update, not a failure).  Categories are plain
objects with string ids and update records carry JS-object (duplicate-free)
keys. -/
theorem c8_merge_overwrite (cats us : List Json)
    (hobj : cats.all isObjJson = true)
    (hids : cats.all (fun c => isStrOpt (jsGet c "id")) = true)
    (hkeys : us.all keysDistinct = true) :
    (mergeCategories cats us).length = cats.length ∧
    ∀ (i : Nat) (c : Json), cats[i]? = some c →
      (∀ u, us.find? (fun u => optStrictEq (jsGet u "id") (jsGet c "id")) = some u →
        ∃ o, (mergeCategories cats us)[i]? = some o ∧
          jsGet o "isUpdating" = some (.bool false) ∧
          ∀ f, f ≠ "isUpdating" →
            jsGet o f = (match jsGet u f with
              | some v => some v
              | none => jsGet c f)) ∧
      (us.find? (fun u => optStrictEq (jsGet u "id") (jsGet c "id")) = none →
        ∃ o, (mergeCategories cats us)[i]? = some o ∧
          jsGet o "isUpdating" = some (.bool false) ∧
          ∀ f, f ≠ "isUpdating" → jsGet o f = jsGet c f) := by
  rw [List.all_eq_true] at hobj hids hkeys
  refine ⟨by simp [mergeCategories], ?_⟩
  intro i c hc
  have hcmem : c ∈ cats := by
    obtain ⟨hlt, hgv⟩ := List.getElem?_eq_some.mp hc
    exact hgv ▸ List.getElem_mem hlt
  have hcobj : isObjJson c = true := hobj c hcmem
  have hcid : isStrOpt (jsGet c "id") = true := hids c hcmem
  obtain ⟨sid, hsid⟩ : ∃ s, jsGet c "id" = some (.str s) := by
    rcases hg : jsGet c "id" with _ | v
    · rw [hg] at hcid; simp [isStrOpt] at hcid
    · cases v <;> rw [hg] at hcid <;> first
        | exact ⟨_, rfl⟩
        | simp [isStrOpt] at hcid
  constructor
  · intro u hfind
    have hpred := List.find?_some hfind
    have humem : u ∈ us := List.mem_of_find?_eq_some hfind
    obtain ⟨w, hw⟩ : ∃ w, jsGet u "id" = some w := by
      rcases hg : jsGet u "id" with _ | w
      · rw [hg, hsid] at hpred
        simp [optStrictEq] at hpred
      · exact ⟨w, rfl⟩
    have huobj : isObjJson u = true := jsGet_some_isObj hw
    obtain ⟨gs, rfl⟩ : ∃ gs, u = .obj gs := by
      cases u <;> simp [isObjJson] at huobj
      exact ⟨_, rfl⟩
    have hdist : distinctKeysB (gs.map Prod.fst) = true := by
      have := hkeys _ humem
      simpa [keysDistinct] using this
    refine ⟨.obj (setKey (objSpread c (.obj gs)) "isUpdating" (.bool false)),
      ?_, ?_, ?_⟩
    · show (mergeCategories cats us)[i]? = _
      unfold mergeCategories
      rw [List.getElem?_map, hc, Option.map_some']
      rw [hfind]
    · show getProp (setKey (objSpread c (.obj gs)) "isUpdating" (.bool false))
        "isUpdating" = _
      rw [getProp_setKey, if_pos rfl]
    · intro f hf
      show getProp (setKey (objSpread c (.obj gs)) "isUpdating" (.bool false)) f = _
      rw [getProp_setKey, if_neg hf, jsGet_objSpread f hdist,
        enumProps_getProp_of_obj hcobj]
      rfl
  · intro hfind
    refine ⟨setIsUpdating c false, ?_, ?_, ?_⟩
    · show (mergeCategories cats us)[i]? = _
      unfold mergeCategories
      rw [List.getElem?_map, hc, Option.map_some']
      rw [hfind]
    · show jsGet (setIsUpdating c false) "isUpdating" = _
      rw [jsGet_setIsUpdating, if_pos rfl]
    · intro f hf
      rw [jsGet_setIsUpdating, if_neg hf, enumProps_getProp_of_obj hcobj]

/-- Witness for C8 at a concrete two-category merge with one matching
record. -/
theorem c8_merge_overwrite_witness :
    (mergeCategories [gardenToolsCat, potsCat] [updRecA]).map
        (fun o => jsGet o "name") =
      [some (.str "New Garden Tools"), some (.str "Pots")] ∧
    (mergeCategories [gardenToolsCat, potsCat] [updRecA]).map
        (fun o => jsGet o "isUpdating") =
      [some (.bool false), some (.bool false)] ∧
    (mergeCategories [gardenToolsCat, potsCat] [updRecA]).length = 2 := by
  refine ⟨rfl, rfl, ?_⟩
  have h := c8_merge_overwrite [gardenToolsCat, potsCat] [updRecA] rfl rfl rfl
  simpa using h.1

/-- Witness for C10 at a concrete two-element batch. -/
theorem c10_synthesized_ids_witness :
    ([Json.obj [("name", .str "A")], Json.obj []].all
      (fun c => (jsGet c "id").isNone)) = true ∧
    (normalizeCategories 7 [.obj [("name", .str "A")], .obj []]).map
        (fun o => jsGet o "id") =
      [some (.str "ai-generated-7-0"), some (.str "ai-generated-7-1")] ∧
    ((normalizeCategories 7 [.obj [("name", .str "A")], .obj []]).map
        (fun o => jsGet o "id")).Nodup := by
  refine ⟨rfl, rfl, ?_⟩
  exact (c10_synthesized_ids 7 [.obj [("name", .str "A")], .obj []] rfl).2

/-- C2 counterexample: the merge step matches update records against *every*
category's id, not only the resolved targets, so an update response carrying
a non-target id mutates a category outside the target set: with targets
resolving to exactly `\x7b"a"\x7d`, a response record with id `"b"` renames
category `"b"` from `"Pots"` to `"Hacked"`. -/
theorem c2_counterexample :
    resolvedIdsOf [gardenToolsCat, potsCat] specificToolsAnalysis
        = [some (.str "a")] ∧
    idIncluded (resolvedIdsOf [gardenToolsCat, potsCat] specificToolsAnalysis)
        (jsGet potsCat "id") = false ∧
    (finalOf (handleCategoryUpdate "garden" "make tools blue"
        [gardenToolsCat, potsCat] (some specificToolsAnalysis)
        (some (.str "[\x7b\"id\":\"b\",\"name\":\"Hacked\"\x7d]")))).map
      (fun F => F.map (fun o => jsGet o "name")) =
      some [some (.str "Garden Tools"), some (.str "Hacked")] ∧
    jsGet potsCat "name" = some (.str "Pots") ∧
    Json.str "Hacked" ≠ Json.str "Pots" :=
  ⟨rfl, rfl, rfl, rfl, by intro h; injection h with h2; simp at h2⟩

/-- C2 (amended): during the specific path, a category whose id is outside
the resolved target set is never marked updating — after the marking write
its `isUpdating` is `false` and every other field is unchanged — and, on
completion, its fields are still unchanged *provided no update-response
record carries that category's id* (the merge matches response records
against every category, see the counterexample); the same marked-state frame
holds when the path aborts into a full regeneration after marking. -/
theorem c2_specific_frame (bp np : String) (cats : List Json) (ar : Json)
    (ur : Option Json) (i : Nat) (c : Json)
    (hc : cats[i]? = some c)
    (hcobj : isObjJson c = true)
    (hni : idIncluded (resolvedIdsOf cats ar) (jsGet c "id") = false) :
    (∀ M p, handleCategoryUpdate bp np cats (some ar) ur = .fullRegen (some M) p →
      ∃ m, M[i]? = some m ∧ jsGet m "isUpdating" = some (.bool false) ∧
        ∀ f, f ≠ "isUpdating" → jsGet m f = jsGet c f) ∧
    (∀ M F, handleCategoryUpdate bp np cats (some ar) ur = .specificDone M F →
      (∃ m, M[i]? = some m ∧ jsGet m "isUpdating" = some (.bool false) ∧
        ∀ f, f ≠ "isUpdating" → jsGet m f = jsGet c f) ∧
      ((updateListOf ur).all
          (fun u => !optStrictEq (jsGet u "id") (jsGet c "id")) = true →
        ∃ o, F[i]? = some o ∧ jsGet o "isUpdating" = some (.bool false) ∧
          ∀ f, f ≠ "isUpdating" → jsGet o f = jsGet c f)) := by
  unfold resolvedIdsOf at hni
  constructor
  · intro M p h
    obtain ⟨ts, heqT, hM, hp⟩ := handle_regen_marked_inv h
    rw [analysisTargets_eq heqT] at hni
    refine ⟨setIsUpdating c false, ?_, ?_, ?_⟩
    · rw [hM]
      unfold markCategories
      rw [List.getElem?_map, hc, Option.map_some', hni]
    · rw [jsGet_setIsUpdating, if_pos rfl]
    · intro f hf
      rw [jsGet_setIsUpdating, if_neg hf, enumProps_getProp_of_obj hcobj]
  · intro M F h
    obtain ⟨ts, u, us, heqT, hne, hM, hu, hpu, hF⟩ := handle_specific_inv h
    rw [analysisTargets_eq heqT] at hni
    have hmarked : M[i]? = some (setIsUpdating c false) := by
      rw [hM]
      unfold markCategories
      rw [List.getElem?_map, hc, Option.map_some', hni]
    constructor
    · refine ⟨setIsUpdating c false, hmarked, ?_, ?_⟩
      · rw [jsGet_setIsUpdating, if_pos rfl]
      · intro f hf
        rw [jsGet_setIsUpdating, if_neg hf, enumProps_getProp_of_obj hcobj]
    · intro hall
      have hus : updateListOf ur = us := by
        rw [hu]
        unfold updateListOf
        dsimp only
        rw [hpu]
      rw [hus, List.all_eq_true] at hall
      have hmid : jsGet (setIsUpdating c false) "id" = jsGet c "id" := by
        rw [jsGet_setIsUpdating, if_neg (by decide),
          enumProps_getProp_of_obj hcobj]
      have hfind : us.find? (fun u => optStrictEq (jsGet u "id")
          (jsGet (setIsUpdating c false) "id")) = none := by
        rw [List.find?_eq_none]
        intro x hx
        rw [hmid]
        simpa using hall x hx
      refine ⟨setIsUpdating (setIsUpdating c false) false, ?_, ?_, ?_⟩
      · rw [hF]
        unfold mergeCategories
        rw [List.getElem?_map, hmarked, Option.map_some', hfind]
      · rw [jsGet_setIsUpdating, if_pos rfl]
      · intro f hf
        rw [jsGet_setIsUpdating, if_neg hf,
          @enumProps_getProp_of_obj (setIsUpdating c false) rfl f,
          jsGet_setIsUpdating, if_neg hf, enumProps_getProp_of_obj hcobj]

/-- Witness for C2 at the spec's own example state, with an update envelope
whose parse fails (an empty merge): category `"b"` keeps its name. -/
theorem c2_specific_frame_witness :
    idIncluded (resolvedIdsOf [gardenToolsCat, potsCat] specificToolsAnalysis)
        (jsGet potsCat "id") = false ∧
    (((finalOf (handleCategoryUpdate "garden" "make tools blue"
        [gardenToolsCat, potsCat] (some specificToolsAnalysis)
        (some (.str "goop")))).bind (fun F => F[1]?)).bind
      (fun o => jsGet o "name")) = some (.str "Pots") := by
  have h := c2_specific_frame "garden" "make tools blue"
    [gardenToolsCat, potsCat] specificToolsAnalysis (some (.str "goop"))
    1 potsCat rfl rfl rfl
  refine ⟨rfl, ?_⟩
  obtain ⟨M, F, hMF⟩ : ∃ M F, handleCategoryUpdate "garden" "make tools blue"
      [gardenToolsCat, potsCat] (some specificToolsAnalysis)
      (some (.str "goop")) = .specificDone M F := ⟨_, _, rfl⟩
  obtain ⟨o, ho, _, hframe⟩ := (h.2 M F hMF).2 rfl
  rw [hMF]
  show ((some F).bind (fun F => F[1]?)).bind (fun o => jsGet o "name") = _
  rw [Option.some_bind, ho, Option.some_bind, hframe "name" (by decide)]
  rfl

/-- C5 counterexample: the claim says an update response that fails to
parse as an array causes a fall-back to full regeneration; in the code
`updatedCategories` starts as the empty array and keeps that value when
every parse attempt fails, so such a response *completes the specific
path* with an empty no-op merge (clearing `isUpdating`) instead of
regenerating. -/
theorem c5_counterexample :
    parseUpdateResult (.obj [("foo", .num 1)]) = .arr [] ∧
    isFullRegen (handleCategoryUpdate "garden" "make tools blue"
        [gardenToolsCat, potsCat] (some specificToolsAnalysis)
        (some (.obj [("foo", .num 1)]))) = false ∧
    (finalOf (handleCategoryUpdate "garden" "make tools blue"
        [gardenToolsCat, potsCat] (some specificToolsAnalysis)
        (some (.obj [("foo", .num 1)])))).map
      (fun F => F.map (fun o => jsGet o "isUpdating")) =
      some [some (.bool false), some (.bool false)] :=
  ⟨rfl, rfl, rfl⟩

/-- C5 (amended): the refinement pipeline never blocks — a throwing or
falsy classifier call, a classification that is not a `specific` intent
with a non-empty target list, or an empty resolved target set each fall
back to a full regeneration with the new message as the prompt; once in
the specific path, a throwing or falsy update call and a parse yielding a
non-array both fall back to full regeneration (with the marking already
applied), while a parse yielding an array — including the empty array
left when every parse attempt fails, see the counterexample — completes
the specific path by merging. -/
theorem c5_regen_policy (bp np : String) (cats : List Json) :
    (∀ ur, handleCategoryUpdate bp np cats none ur = .fullRegen none np) ∧
    (∀ ar ur, jsTruthy ar = false →
      handleCategoryUpdate bp np cats (some ar) ur = .fullRegen none np) ∧
    (∀ ar ur, specificNonempty (parseAnalysis ar) = false →
      handleCategoryUpdate bp np cats (some ar) ur = .fullRegen none np) ∧
    (∀ ar ur, (resolvedIdsOf cats ar).isEmpty = true →
      handleCategoryUpdate bp np cats (some ar) ur = .fullRegen none np) ∧
    (bp ≠ "" → np ≠ "" → ∀ ar, jsTruthy ar = true →
      specificNonempty (parseAnalysis ar) = true →
      (resolvedIdsOf cats ar).isEmpty = false →
      (handleCategoryUpdate bp np cats (some ar) none =
        .fullRegen (some (markCategories cats (resolvedIdsOf cats ar))) np) ∧
      (∀ u, jsTruthy u = false →
        handleCategoryUpdate bp np cats (some ar) (some u) =
          .fullRegen (some (markCategories cats (resolvedIdsOf cats ar))) np) ∧
      (∀ u us, jsTruthy u = true → parseUpdateResult u = .arr us →
        handleCategoryUpdate bp np cats (some ar) (some u) =
          .specificDone (markCategories cats (resolvedIdsOf cats ar))
            (mergeCategories
              (markCategories cats (resolvedIdsOf cats ar)) us)) ∧
      (∀ u, jsTruthy u = true → notArrJson (parseUpdateResult u) = true →
        handleCategoryUpdate bp np cats (some ar) (some u) =
          .fullRegen (some (markCategories cats (resolvedIdsOf cats ar))) np)) := by
  refine ⟨?_, ?_, ?_, ?_, ?_⟩
  · intro ur
    unfold handleCategoryUpdate
    split <;> rfl
  · intro ar ur hf
    unfold handleCategoryUpdate
    split
    · rfl
    · dsimp only
      rw [hf]
      rfl
  · intro ar ur hs
    unfold handleCategoryUpdate
    split
    · rfl
    · dsimp only
      split
      · rfl
      · rename_i hint0
        split
        · rfl
        · rename_i hinteq
          split
          · rename_i ts heqT
            split
            · rfl
            · rename_i hne
              exfalso
              unfold specificNonempty at hs
              rw [heqT] at hs
              dsimp only at hs
              have h1 : optStrictEq (jsGet (parseAnalysis ar) "intent")
                  (some (.str "specific")) = true := by
                cases hh : optStrictEq (jsGet (parseAnalysis ar) "intent")
                    (some (.str "specific"))
                · exact absurd (by rw [hh]; rfl) hinteq
                · rfl
              rw [h1] at hs
              have h2 : ts.isEmpty = false := by
                cases hh : ts.isEmpty
                · rfl
                · exact absurd hh hne
              rw [h2] at hs
              simp at hs
          · rfl
  · intro ar ur hre
    unfold handleCategoryUpdate
    split
    · rfl
    · dsimp only
      split
      · rfl
      · split
        · rfl
        · split
          · rename_i ts heqT
            split
            · rfl
            · split
              · rfl
              · rename_i hne2
                exfalso
                unfold resolvedIdsOf at hre
                rw [analysisTargets_eq heqT] at hre
                exact hne2 hre
          · rfl
  · intro hbp hnp ar ht hs hre
    have hbase : ¬(bp = "" ∨ np = "") := by
      rintro (h0 | h0)
      · exact hbp h0
      · exact hnp h0
    unfold specificNonempty at hs
    rw [Bool.and_eq_true] at hs
    have hint : optStrictEq (jsGet (parseAnalysis ar) "intent")
        (some (.str "specific")) = true := hs.1
    obtain ⟨ts, heqT, hts_ne⟩ : ∃ ts,
        jsGet (parseAnalysis ar) "targetCategories" = some (.arr ts) ∧
          ts.isEmpty = false := by
      have h2 := hs.2
      cases hg : jsGet (parseAnalysis ar) "targetCategories" with
      | none => rw [hg] at h2; simp at h2
      | some v =>
        cases v <;> rw [hg] at h2 <;> dsimp only at h2
        case arr ts =>
          refine ⟨ts, rfl, ?_⟩
          cases hh : ts.isEmpty
          · rfl
          · rw [hh] at h2; simp at h2
        all_goals simp at h2
    have hmarked_eq : resolvedIdsOf cats ar = resolveTargetIds cats ts := by
      unfold resolvedIdsOf
      rw [analysisTargets_eq heqT]
    have hre' : (resolveTargetIds cats ts).isEmpty = false := by
      rw [← hmarked_eq]
      exact hre
    refine ⟨?_, ?_, ?_, ?_⟩
    · rw [hmarked_eq]
      unfold handleCategoryUpdate
      rw [if_neg hbase]
      try dsimp only
      rw [ht, if_neg (by decide)]
      try dsimp only
      rw [hint, if_neg (by decide), heqT]
      try dsimp only
      rw [hts_ne, if_neg (by decide), hre', if_neg (by decide)]
    · intro u hfu
      rw [hmarked_eq]
      unfold handleCategoryUpdate
      rw [if_neg hbase]
      try dsimp only
      rw [ht, if_neg (by decide)]
      try dsimp only
      rw [hint, if_neg (by decide), heqT]
      try dsimp only
      rw [hts_ne, if_neg (by decide), hre', if_neg (by decide)]
      try dsimp only
      rw [hfu]
      rfl
    · intro u us hfu hpu
      rw [hmarked_eq]
      unfold handleCategoryUpdate
      rw [if_neg hbase]
      try dsimp only
      rw [ht, if_neg (by decide)]
      try dsimp only
      rw [hint, if_neg (by decide), heqT]
      try dsimp only
      rw [hts_ne, if_neg (by decide), hre', if_neg (by decide)]
      try dsimp only
      rw [hfu, if_neg (by decide), hpu]
    · intro u hfu hna
      rw [hmarked_eq]
      unfold handleCategoryUpdate
      rw [if_neg hbase]
      try dsimp only
      rw [ht, if_neg (by decide)]
      try dsimp only
      rw [hint, if_neg (by decide), heqT]
      try dsimp only
      rw [hts_ne, if_neg (by decide), hre', if_neg (by decide)]
      try dsimp only
      rw [hfu, if_neg (by decide)]
      cases hp : parseUpdateResult u <;> rw [hp] at hna
      all_goals first
        | rfl
        | simp [notArrJson] at hna

/-- Witness for C5: the marked fall-back at a throwing update call, and
the no-analysis fall-back, both at the spec's example state. -/
theorem c5_regen_policy_witness :
    handleCategoryUpdate "garden" "make tools blue" [gardenToolsCat, potsCat]
        (some specificToolsAnalysis) none =
      .fullRegen (some (markCategories [gardenToolsCat, potsCat]
        (resolvedIdsOf [gardenToolsCat, potsCat] specificToolsAnalysis)))
        "make tools blue" ∧
    handleCategoryUpdate "garden" "make tools blue" [gardenToolsCat, potsCat]
        (some (.bool false)) none = .fullRegen none "make tools blue" := by
  have h := c5_regen_policy "garden" "make tools blue"
    [gardenToolsCat, potsCat]
  refine ⟨?_, ?_⟩
  · exact (h.2.2.2.2 (by decide) (by decide) specificToolsAnalysis
      rfl rfl rfl).1
  · exact h.2.1 (.bool false) none rfl

end VS
